import Mathlib

/-!
Shallow embedding of the `delta` diff-highlighting filter
(`src/paint.rs` and `src/state_machine.rs`).

Rust strings are modelled as lists of characters (`Str`).  External
collaborators (the `console` ANSI stripper, the extension extractor, the
syntect highlighter and theme) are modelled as parameters gathered in
`Externals`; the painting and classification logic itself is translated
function by function from the source.  The output sink (`writer`) is
modelled as the list of strings passed to `writeln!`, together with a
`plan` of write outcomes so that write failures can be expressed; the
`unwrap` of the active syntax reference is modelled by the `panicked`
result.
-/

namespace Delta

set_option maxHeartbeats 1000000

/-- Rust `String` / `&str`, modelled as a list of characters. -/
abbrev Str := List Char

/-- Model of Rust `str::starts_with`. -/
def strStarts (s pat : Str) : Bool :=
  match s, pat with
  | _, [] => true
  | [], _ :: _ => false
  | c :: s', d :: p' => c == d && strStarts s' p'

/-- Worker for `stripAnsi`: when `inCsi` is true we are inside an
`ESC [` control sequence and skip characters until a final byte
(`0x40`–`0x7e`) is consumed. -/
def stripA : Bool → Str → Str
  | _, [] => []
  | true, c :: rest =>
    if 0x40 ≤ c.toNat ∧ c.toNat ≤ 0x7e then stripA false rest else stripA true rest
  | false, c :: rest =>
    if c = '\x1b' then
      match rest with
      | [] => []
      | d :: rest2 => if d = '[' then stripA true rest2 else stripA false rest2
    else c :: stripA false rest

/-- Model of `console::strip_ansi_codes`, restricted to CSI escape
sequences (`ESC [ params final`) — the only escape form this program
produces. -/
def stripAnsi (s : Str) : Str := stripA false s

/-- Model of `Vec::<String>::join("\n")`. -/
def joinNl : List Str → Str
  | [] => []
  | [l] => l
  | l :: ls => l ++ '\n' :: joinNl ls

/-- Model of `syntect::util::LinesWithEndings`: split a text into lines,
each retaining its `'\n'` terminator; a final fragment with no terminator
is kept, and the empty text yields no lines. -/
def linesWithEndings : Str → List Str
  | [] => []
  | c :: rest =>
    if c = '\n' then ['\n'] :: linesWithEndings rest
    else
      match linesWithEndings rest with
      | [] => [[c]]
      | l :: ls => (c :: l) :: ls

/-- Split a written chunk into its lines at `'\n'` (the conceptual lines
of the output stream; `writeln!` terminates each chunk with one more
newline, so a chunk with `k` embedded newlines is `k + 1` output lines). -/
def splitNl : Str → List Str
  | [] => [[]]
  | c :: rest =>
    if c = '\n' then [] :: splitNl rest
    else
      match splitNl rest with
      | [] => [[c]]
      | l :: ls => (c :: l) :: ls

/-- Decimal digit character. -/
def digitChar (n : Nat) : Char :=
  match n with
  | 0 => '0' | 1 => '1' | 2 => '2' | 3 => '3' | 4 => '4'
  | 5 => '5' | 6 => '6' | 7 => '7' | 8 => '8' | _ => '9'

/-- Fuel-driven decimal rendering worker. -/
def natDigitsAux : Nat → Nat → Str
  | 0, _ => []
  | fuel + 1, n =>
    if n < 10 then [digitChar n]
    else natDigitsAux fuel (n / 10) ++ [digitChar (n % 10)]

/-- Model of Rust's decimal `Display` for the `u8` color components. -/
def natDigits (n : Nat) : Str := natDigitsAux (n + 1) n

/-- `syntect::highlighting::Color` (RGBA bytes). -/
structure Color where
  r : Nat
  g : Nat
  b : Nat
  a : Nat
deriving DecidableEq, Repr

/-- The part of `syntect::highlighting::Style` this program reads. -/
structure Style where
  foreground : Color
deriving DecidableEq, Repr

/-- An SGR escape sequence `ESC [ params m`. -/
def sgr (params : Str) : Str := '\x1b' :: '[' :: params ++ ['m']

/-- The background escape `"\x1b[48;2;{r};{g};{b}m"`. -/
def bgEscape (c : Color) : Str :=
  sgr ("48;2;".data ++ natDigits c.r ++ ';' :: natDigits c.g ++ ';' :: natDigits c.b)

/-- The foreground escape `"\x1b[38;2;{r};{g};{b}m"`. -/
def fgEscape (c : Color) : Str :=
  sgr ("38;2;".data ++ natDigits c.r ++ ';' :: natDigits c.g ++ ';' :: natDigits c.b)

/-- `LIGHT_THEMES` from `paint.rs`. -/
def LIGHT_THEMES : List String :=
  ["GitHub", "Monokai Extended Light", "OneHalfLight", "ansi-light"]

/-- `is_light_theme` from `paint.rs`. -/
def is_light_theme (theme : String) : Bool := LIGHT_THEMES.contains theme

def LIGHT_THEME_PLUS_COLOR : Color := ⟨0xd0, 0xff, 0xd0, 0xff⟩

def LIGHT_THEME_MINUS_COLOR : Color := ⟨0xff, 0xd0, 0xd0, 0xff⟩

def DARK_THEME_PLUS_COLOR : Color := ⟨0x01, 0x3b, 0x01, 0xff⟩

def DARK_THEME_MINUS_COLOR : Color := ⟨0x3f, 0x00, 0x01, 0xff⟩

/-- `Config` from `paint.rs`.  The theme is abstract (`θ`); the
`syntax_set` reference is only ever handed to the external highlighter
and extension lookup, so it lives in `Externals` instead. -/
structure Config (θ : Type) where
  theme : θ
  plus_color : Color
  minus_color : Color
  width : Option Nat
  highlight_removed : Bool
  pager : String

/-- The external collaborators of the core: the extension extractor, the
syntax-set lookup (over an abstract syntax-reference type `σ`), the
stateful syntect highlighter (state type `η`), and the ANSI stripper.
`highlight` returns the styled ranges for one line plus the next
highlighter state. -/
structure Externals (σ θ η : Type) where
  get_file_extension_from_diff_line : Str → Option Str
  find_syn_by_extension : Str → Option σ
  highlight_lines_new : σ → θ → η
  highlight : η → Str → List (Style × Str) × η
  strip_ansi_codes : Str → Str

/-- The theme-name resolution at the top of `get_config`. -/
def resolve_theme_name (theme : Option String)
    (user_requests_theme_for_light_terminal_background : Bool) : String :=
  match theme with
  | some t => t
  | none =>
    match user_requests_theme_for_light_terminal_background with
    | true => "GitHub"
    | false => "Monokai Extended"

/-- `get_config` from `paint.rs`.  `color_from_str` models
`syntect::highlighting::Color::from_str` (`.ok()` included), and
`themes` models the `theme_set.themes[name]` lookup. -/
def get_config {θ : Type} (color_from_str : String → Option Color)
    (themes : String → θ) (theme : Option String)
    (user_requests_theme_for_light_terminal_background : Bool)
    (plus_color_str : Option String) (minus_color_str : Option String)
    (highlight_removed : Bool) (width : Option Nat) : Config θ :=
  let theme_name :=
    resolve_theme_name theme user_requests_theme_for_light_terminal_background
  let minus_color := minus_color_str.bind fun s => color_from_str s
  let plus_color := plus_color_str.bind fun s => color_from_str s
  let is_light := LIGHT_THEMES.contains theme_name
  { theme := themes theme_name
    plus_color := plus_color.getD
      (if is_light then LIGHT_THEME_PLUS_COLOR else DARK_THEME_PLUS_COLOR)
    minus_color := minus_color.getD
      (if is_light then LIGHT_THEME_MINUS_COLOR else DARK_THEME_MINUS_COLOR)
    width := width
    highlight_removed := highlight_removed
    pager := "less" }

/-- `paint` from `paint.rs`: append `text` to `buf` with color escape
codes applied. -/
def paint (text : Str) (foreground_color : Option Color)
    (background_color : Option Color) (buf : Str) : Str :=
  let b :=
    match background_color with
    | some c => buf ++ bgEscape c
    | none => buf
  match foreground_color with
  | some c => b ++ fgEscape c ++ text
  | none => b ++ text

/-- `paint_ranges` from `paint.rs`. -/
def paint_ranges (foreground_style_ranges : List (Style × Str))
    (background_color : Option Color) (apply_syn_highlighting : Bool)
    (buf : Str) : Str :=
  foreground_style_ranges.foldl
    (fun b sr =>
      paint sr.2 (if apply_syn_highlighting then some sr.1.foreground else none)
        background_color b)
    buf

/-- The body of the `for line in LinesWithEndings::from(&text)` loop of
`paint_text`: emit a background escape if requested, highlight the line
with the stateful external highlighter, and paint the resulting ranges
(with no extra background). -/
def paintChunk {σ θ η : Type} (ex : Externals σ θ η)
    (background_color : Option Color) (apply_syn_highlighting : Bool)
    (acc : Str × η) (line : Str) : Str × η :=
  let b :=
    match background_color with
    | some c => acc.1 ++ bgEscape c
    | none => acc.1
  let rh := ex.highlight acc.2 line
  (paint_ranges rh.1 none apply_syn_highlighting b, rh.2)

/-- `paint_text` from `paint.rs`: fold `paintChunk` over the lines of
`text` (with endings), starting from the given buffer and a fresh
highlighter for `(syn, theme)`. -/
def paint_text {σ θ η : Type} (ex : Externals σ θ η) (text : Str) (syn : σ)
    (background_color : Option Color) (config : Config θ)
    (apply_syn_highlighting : Bool) (buf : Str) : Str :=
  (List.foldl (paintChunk ex background_color apply_syn_highlighting)
    (buf, ex.highlight_lines_new syn config.theme) (linesWithEndings text)).1

/-- `State` from `state_machine.rs`. -/
inductive State where
  | Commit
  | DiffMeta
  | HunkMeta
  | HunkZero
  | HunkMinus
  | HunkPlus
  | Unknown
deriving DecidableEq, Repr

/-- `Painter` from `paint.rs`; the `writer` and `config` fields are
threaded separately (the writer as the `RunState` write log, the config
as an argument). -/
structure Painter (σ : Type) where
  minus_lines : List Str
  plus_lines : List Str
  synRef : Option σ
  output_buffer : Str
deriving DecidableEq, Repr

/-- The observable I/O state of one run: the painter, the log of
`writeln!` payloads so far, and the remaining plan of write outcomes
(an empty plan means every further write succeeds). -/
structure RunState (σ : Type) where
  painter : Painter σ
  written : List Str
  plan : List Bool
deriving DecidableEq, Repr

/-- Outcome of a fallible painter/classifier operation: success, a
propagated write error (Rust `?`), or a panic of `syntax.unwrap()`.
Both non-panic outcomes carry the state for inspection. -/
inductive Res (α : Type) where
  | ok (a : α)
  | wErr (a : α)
  | panicked
deriving DecidableEq, Repr

/-- One `writeln!(writer, "{}", s)` attempt: consults the plan, logs the
payload on success. -/
def RunState.writeln {σ : Type} (st : RunState σ) (s : Str) : Bool × RunState σ :=
  match st.plan with
  | [] => (true, { st with written := st.written ++ [s] })
  | b :: rest =>
    if b then (true, { st with written := st.written ++ [s], plan := rest })
    else (false, { st with plan := rest })

/-- `Painter::is_empty` from `paint.rs`. -/
def Painter.is_empty {σ : Type} (p : Painter σ) : Bool :=
  p.minus_lines.length == 0 && p.plus_lines.length == 0

/-- `Painter::paint_and_emit_text` from `paint.rs`: paint `text` into the
output buffer, write the buffer (a failed write returns early with the
buffer still full), then truncate the buffer.  The `syntax.unwrap()`
panics when no syntax reference is set. -/
def Painter.paint_and_emit_text {σ θ η : Type} (config : Config θ)
    (ex : Externals σ θ η) (st : RunState σ) (text : Str)
    (background_color : Option Color) (apply_syn_highlighting : Bool) :
    Res (RunState σ) :=
  match st.painter.synRef with
  | none => Res.panicked
  | some syn =>
    let buf := paint_text ex text syn background_color config
      apply_syn_highlighting st.painter.output_buffer
    let st1 : RunState σ := { st with painter := { st.painter with output_buffer := buf } }
    match st1.writeln buf with
    | (true, st2) => Res.ok { st2 with painter := { st2.painter with output_buffer := [] } }
    | (false, st2) => Res.wErr st2

/-- `Painter::paint_and_emit_buffered_lines` from `paint.rs`. -/
def Painter.paint_and_emit_buffered_lines {σ θ η : Type} (config : Config θ)
    (ex : Externals σ θ η) (st : RunState σ) : Res (RunState σ) :=
  if st.painter.is_empty then Res.ok st
  else
    match Painter.paint_and_emit_text config ex st (joinNl st.painter.minus_lines)
        (some config.minus_color) config.highlight_removed with
    | Res.ok stA =>
      match Painter.paint_and_emit_text config ex
          { stA with painter := { stA.painter with minus_lines := [] } }
          (joinNl stA.painter.plus_lines) (some config.plus_color) true with
      | Res.ok stC => Res.ok { stC with painter := { stC.painter with plus_lines := [] } }
      | Res.wErr stC => Res.wErr stC
      | Res.panicked => Res.panicked
    | Res.wErr stA => Res.wErr stA
    | Res.panicked => Res.panicked

/-- The trailing `writeln!(painter.writer, "{}", raw_line)` of the main
loop, paired with the state value the loop carries at that point. -/
def writelnRaw {σ : Type} (state : State) (st : RunState σ) (raw_line : Str) :
    Res (State × RunState σ) :=
  match st.writeln raw_line with
  | (true, st') => Res.ok (state, st')
  | (false, st') => Res.wErr (state, st')

/-- The hunk-content guard of the main loop:
`state == HunkMeta || state == HunkZero || state == HunkMinus || state == HunkPlus`. -/
abbrev inHunk (state : State) : Prop :=
  state = State.HunkMeta ∨ state = State.HunkZero ∨
    state = State.HunkMinus ∨ state = State.HunkPlus

/-- One iteration of the `for raw_line in lines` loop of `delta`
(`state_machine.rs`).  Returns the next classification state and run
state, or the propagated write error / panic. -/
def deltaStep {σ θ η : Type} (config : Config θ) (ex : Externals σ θ η)
    (state : State) (st : RunState σ) (raw_line : Str) :
    Res (State × RunState σ) :=
  let line := ex.strip_ansi_codes raw_line
  if strStarts line "diff --".data then
    match Painter.paint_and_emit_buffered_lines config ex st with
    | Res.ok st1 =>
      let syn :=
        match ex.get_file_extension_from_diff_line line with
        | some extension => ex.find_syn_by_extension extension
        | none => none
      let st2 : RunState σ := { st1 with painter := { st1.painter with synRef := syn } }
      writelnRaw State.DiffMeta st2 raw_line
    | Res.wErr st1 => Res.wErr (state, st1)
    | Res.panicked => Res.panicked
  else if strStarts line "commit".data then
    match Painter.paint_and_emit_buffered_lines config ex st with
    | Res.ok st1 => writelnRaw State.Commit st1 raw_line
    | Res.wErr st1 => Res.wErr (state, st1)
    | Res.panicked => Res.panicked
  else if strStarts line "@@".data then
    writelnRaw State.HunkMeta st raw_line
  else if inHunk state ∧ st.painter.synRef.isSome then
    match line.head? with
    | some '-' =>
      if state = State.HunkPlus then
        match Painter.paint_and_emit_buffered_lines config ex st with
        | Res.ok st1 =>
          Res.ok (State.HunkMinus,
            { st1 with painter :=
              { st1.painter with minus_lines := st1.painter.minus_lines ++ [line] } })
        | Res.wErr st1 => Res.wErr (state, st1)
        | Res.panicked => Res.panicked
      else
        Res.ok (State.HunkMinus,
          { st with painter :=
            { st.painter with minus_lines := st.painter.minus_lines ++ [line] } })
    | some '+' =>
      Res.ok (State.HunkPlus,
        { st with painter :=
          { st.painter with plus_lines := st.painter.plus_lines ++ [line] } })
    | _ =>
      match Painter.paint_and_emit_buffered_lines config ex st with
      | Res.ok st1 =>
        match Painter.paint_and_emit_text config ex st1 line none true with
        | Res.ok st2 => Res.ok (State.HunkZero, st2)
        | Res.wErr st2 => Res.wErr (State.HunkZero, st2)
        | Res.panicked => Res.panicked
      | Res.wErr st1 => Res.wErr (state, st1)
      | Res.panicked => Res.panicked
  else
    writelnRaw state st raw_line

/-- The main loop of `delta`, short-circuiting on error. -/
def deltaLoop {σ θ η : Type} (config : Config θ) (ex : Externals σ θ η) :
    List Str → State → RunState σ → Res (State × RunState σ)
  | [], state, st => Res.ok (state, st)
  | raw :: rest, state, st =>
    match deltaStep config ex state st raw with
    | Res.ok (state', st') => deltaLoop config ex rest state' st'
    | e => e

/-- The initial run state of `delta`: empty buffers, no syntax, empty
output buffer. -/
def initSt {σ : Type} (plan : List Bool) : RunState σ :=
  { painter := { minus_lines := [], plus_lines := [], synRef := none, output_buffer := [] }
    written := [], plan := plan }

/-- `delta` from `state_machine.rs`: run the loop from `State::Unknown`,
then perform the final flush. -/
def delta {σ θ η : Type} (config : Config θ) (ex : Externals σ θ η)
    (plan : List Bool) (lines : List Str) : Res (State × RunState σ) :=
  match deltaLoop config ex lines State.Unknown (initSt plan) with
  | Res.ok (state, st) =>
    match Painter.paint_and_emit_buffered_lines config ex st with
    | Res.ok st' => Res.ok (state, st')
    | Res.wErr st' => Res.wErr (state, st')
    | Res.panicked => Res.panicked
  | e => e

/-! ## Observables and interface assumptions -/

/-- The conceptual lines of the output stream: each `writeln!` payload
contributes its `'\n'`-separated segments. -/
def outputLines (ws : List Str) : List Str := (ws.map splitNl).flatten

/-- Number of non-blank output lines. -/
def nbCount (ws : List Str) : Nat :=
  ((outputLines ws).filter (fun l => !l.isEmpty)).length

/-- The unescaped, non-blank output lines, in order. -/
def emittedClean (ws : List Str) : List Str :=
  ((outputLines ws).map stripAnsi).filter (fun l => !l.isEmpty)

/-- A clean input line: stripping is the identity on it, it is non-blank,
and it contains no newline and no escape character. -/
abbrev CleanLine {σ θ η : Type} (ex : Externals σ θ η) (l : Str) : Prop :=
  ex.strip_ansi_codes l = l ∧ l ≠ [] ∧ '\n' ∉ l ∧ '\x1b' ∉ l

/-- Interface assumption on the external highlighter (syntect guarantee):
the styled ranges of a line concatenate back to that line. -/
def GoodHl {σ θ η : Type} (ex : Externals σ θ η) : Prop :=
  ∀ (h : η) (l : Str), ((ex.highlight h l).1.map Prod.snd).flatten = l

/-! ## SGR escape sequences -/

/-- The parameter characters of a CSI sequence (`0x20`–`0x3f`). -/
abbrev IsSgrParams (ps : Str) : Prop := ∀ c ∈ ps, 0x20 ≤ c.toNat ∧ c.toNat ≤ 0x3f

/-- A well-formed SGR escape. -/
def IsSgr (e : Str) : Prop := ∃ ps, e = sgr ps ∧ IsSgrParams ps

/-! ## Interleavings of text with SGR escapes -/

/-- `Interleaved cs ts`: the character list `cs` is the text `ts` with
well-formed SGR escape sequences inserted (and `ts` itself free of
escape characters at the inserted positions). -/
inductive Interleaved : Str → Str → Prop where
  | nil : Interleaved [] []
  | txt {c : Char} {cs ts : Str} : c ≠ '\x1b' → Interleaved cs ts →
      Interleaved (c :: cs) (c :: ts)
  | esc {e cs ts : Str} : IsSgr e → Interleaved cs ts →
      Interleaved (e ++ cs) ts

/-! ## The flush and step lemmas -/

/-- The block written for the removed lines by a flush: the joined minus
buffer painted over the current output buffer, with the removed
background color, highlighted only when `highlight_removed` is set. -/
def minusBlock {σ θ η : Type} (config : Config θ) (ex : Externals σ θ η)
    (syn : σ) (st : RunState σ) : Str :=
  paint_text ex (joinNl st.painter.minus_lines) syn (some config.minus_color)
    config config.highlight_removed st.painter.output_buffer

/-- The block written for the added lines by a flush: the joined plus
buffer painted over the (freshly truncated) output buffer, with the
added background color, always highlighted. -/
def plusBlock {σ θ η : Type} (config : Config θ) (ex : Externals σ θ η)
    (syn : σ) (st : RunState σ) : Str :=
  paint_text ex (joinNl st.painter.plus_lines) syn (some config.plus_color)
    config true []

/-- The syntax reference installed by a `"diff --"` line. -/
def newSyn {σ θ η : Type} (ex : Externals σ θ η) (line : Str) : Option σ :=
  match ex.get_file_extension_from_diff_line line with
  | some extension => ex.find_syn_by_extension extension
  | none => none

/-- How one classifier step may change a line buffer: untouched, cleared
(by a flush), extended by the stripped line at the end, or cleared and
then restarted with the stripped line.  All four preserve the relative
input order of the retained lines. -/
def BufStep (old new : List Str) (l : Str) : Prop :=
  new = old ∨ new = [] ∨ new = old ++ [l] ∨ new = [l]

/-! ## Panic-freedom and structural invariants of one step -/

/-- The safety invariant of the painter: whenever one of the line
buffers is non-empty, the active syntax reference is set. -/
def SynInv {σ : Type} (p : Painter σ) : Prop :=
  p.minus_lines ≠ [] ∨ p.plus_lines ≠ [] → p.synRef.isSome = true

/-! ## Chunk accounting: lines and unescaped content of written chunks -/

/-- The number of non-blank output lines one written chunk contributes. -/
def nbChunk (w : Str) : Nat := ((splitNl w).filter (fun l => !l.isEmpty)).length

/-- The unescaped non-blank output lines one written chunk contributes. -/
def cleanChunk (w : Str) : List Str :=
  ((splitNl w).map stripAnsi).filter (fun l => !l.isEmpty)

/-- A well-formed buffered line: non-blank, no newline, no escape. -/
abbrev CleanBuf (x : Str) : Prop := x ≠ [] ∧ '\n' ∉ x ∧ '\x1b' ∉ x

/-! ## The clean-run invariant and the line-accounting inductions -/

/-- Well-formedness along a failure-free clean run: every write succeeds,
the output buffer is empty between lines, the buffered lines are clean,
and the safety invariant holds. -/
abbrev RunWf {σ : Type} (st : RunState σ) : Prop :=
  st.plan = [] ∧ st.painter.output_buffer = [] ∧
  (∀ x ∈ st.painter.minus_lines, CleanBuf x) ∧
  (∀ x ∈ st.painter.plus_lines, CleanBuf x) ∧
  SynInv st.painter

/-- The line account of a run state: non-blank lines already written
plus lines still buffered. -/
def nbMeasure {σ : Type} (st : RunState σ) : Nat :=
  nbCount st.written + st.painter.minus_lines.length + st.painter.plus_lines.length

/-- The unescaped content account of a run state: unescaped non-blank
written lines followed by the buffered lines. -/
def emitted {σ : Type} (st : RunState σ) : List Str :=
  emittedClean st.written ++ st.painter.minus_lines ++ st.painter.plus_lines

/-- Checks, along a run, that every hunk-header (`"@@"`) line arrives
while both buffers are empty (a hunk header never flushes, so buffered
content would otherwise be emitted after it, out of order). -/
def headersFlushed {σ θ η : Type} (config : Config θ) (ex : Externals σ θ η) :
    List Str → State → RunState σ → Bool
  | [], _, _ => true
  | l :: ls, state, st =>
    (if strStarts (ex.strip_ansi_codes l) "@@".data = true then
        decide (st.painter.minus_lines = [] ∧ st.painter.plus_lines = [])
      else true) &&
    (match deltaStep config ex state st l with
     | Res.ok (state', st') => headersFlushed config ex ls state' st'
     | _ => true)

/-- Buffered content only exists in hunk states, and added content only
in `HunkPlus` (so a flush emits it right where the input had it). -/
abbrev HunkInv {σ : Type} (state : State) (st : RunState σ) : Prop :=
  (st.painter.minus_lines ≠ [] ∨ st.painter.plus_lines ≠ [] → inHunk state) ∧
  (st.painter.plus_lines ≠ [] → state = State.HunkPlus)

/-! ## Reachability invariants for arbitrary write plans -/

/-- The reachable-state invariant of the classifier: outside hunk-content
states both buffers are empty, and buffered content implies an active
syntax reference. -/
abbrev LoopInv {σ : Type} (state : State) (st : RunState σ) : Prop :=
  (¬ inHunk state → st.painter.minus_lines = [] ∧ st.painter.plus_lines = []) ∧
  SynInv st.painter

/-! ## Concrete instantiations for evaluation -/

/-- A concrete instantiation of the externals on trivial syntax, theme
and highlighter-state types: the highlighter returns each line as a
single range, every extension resolves, and the stripper is the concrete
`stripAnsi`. -/
def exUnit : Externals Unit Unit Unit :=
  { get_file_extension_from_diff_line := fun _ => some ("py".data)
    find_syn_by_extension := fun _ => some ()
    highlight_lines_new := fun _ _ => ()
    highlight := fun h l => ([(⟨⟨1, 2, 3, 0xff⟩⟩, l)], h)
    strip_ansi_codes := stripAnsi }

/-- The same externals with no resolvable syntax (highlighting disabled). -/
def exNone : Externals Unit Unit Unit :=
  { exUnit with find_syn_by_extension := fun _ => none }

/-- A concrete configuration over the trivial theme. -/
def cfgUnit : Config Unit :=
  { theme := ()
    plus_color := DARK_THEME_PLUS_COLOR
    minus_color := DARK_THEME_MINUS_COLOR
    width := none
    highlight_removed := false
    pager := "less" }

/-- The chunks a run writes (empty on failure), for stating concrete
round-trip facts. -/
def runWritten {σ θ η : Type} (config : Config θ) (ex : Externals σ θ η)
    (lines : List Str) : List Str :=
  match delta config ex [] lines with
  | Res.ok (_, st) => st.written
  | _ => []

/-- The unescaped output lines of a run. -/
def unescapedOutput {σ θ η : Type} (config : Config θ) (ex : Externals σ θ η)
    (lines : List Str) : List Str :=
  (outputLines (runWritten config ex lines)).map stripAnsi

/-- Concrete flush state for the C1 witness: one removed and one added
line pending. -/
def c1st : RunState Unit :=
  { painter := { minus_lines := ["-a".data], plus_lines := ["+b".data],
                 synRef := some (), output_buffer := [] }
    written := []
    plan := [] }

/-- State for the C7 counterexample: one pending failing write. -/
def c7st : RunState Unit :=
  { painter := { minus_lines := [], plus_lines := [], synRef := some (),
                 output_buffer := [] }
    written := []
    plan := [false] }

/-- Concrete states for the C7 witness: a successful write. -/
def c7ok : RunState Unit :=
  { painter := { minus_lines := [], plus_lines := [], synRef := some (),
                 output_buffer := [] }
    written := []
    plan := [] }

def c7ok' : RunState Unit :=
  { painter := { minus_lines := [], plus_lines := [], synRef := some (),
                 output_buffer := [] }
    written := [fgEscape ⟨1, 2, 3, 0xff⟩ ++ "x".data]
    plan := [] }

/-- A concrete color parser for the C9 witness: only `"#123456"`
parses. -/
def parseW (s : String) : Option Color :=
  if s = "#123456" then some ⟨0x12, 0x34, 0x56, 0xff⟩ else none

/-- A concrete diff fragment: header, hunk header, an added line, a
context line. -/
def c8input : List Str :=
  ["diff --a.py".data, "@@ h".data, "+x".data, " c".data]

/-! ## Basic facts about the string utilities -/

theorem strStarts_nil_false {d : Char} {p : Str} :
    strStarts [] (d :: p) = false := rfl

theorem strStarts_cons {c d : Char} {s p : Str} :
    strStarts (c :: s) (d :: p) = (c == d && strStarts s p) := rfl

theorem strStarts_head_ne {c d : Char} {s p : Str} (h : c ≠ d) :
    strStarts (c :: s) (d :: p) = false := by
  simp [strStarts_cons, h]

/-- A line whose first character is `c ∉ {'d', 'c', '@'}` matches none of
the three marker prefix tests. -/
theorem strStarts_markers_false {l : Str} {c : Char} (h : l.head? = some c)
    (hd : c ≠ 'd') (hc : c ≠ 'c') (ha : c ≠ '@') :
    strStarts l "diff --".data = false ∧ strStarts l "commit".data = false ∧
      strStarts l "@@".data = false := by
  cases l with
  | nil => simp at h
  | cons c' rest =>
    simp only [List.head?_cons, Option.some.injEq] at h
    subst h
    exact ⟨strStarts_head_ne hd, strStarts_head_ne hc, strStarts_head_ne ha⟩

theorem strStarts_atat {l : Str} (h : strStarts l "@@".data = true) :
    ∃ rest, l = '@' :: '@' :: rest := by
  match l with
  | [] => simp [show ("@@".data) = ['@', '@'] from rfl, strStarts] at h
  | [c] =>
    simp [show ("@@".data) = ['@', '@'] from rfl, strStarts] at h
  | c :: d :: rest =>
    simp only [show ("@@".data) = ['@', '@'] from rfl, strStarts_cons,
      Bool.and_eq_true, beq_iff_eq] at h
    exact ⟨rest, by simp [h.1, h.2.1]⟩

/-! ## Facts about `stripA` / `stripAnsi` -/

theorem stripAnsi_nil : stripAnsi [] = [] := rfl

theorem stripAnsi_cons_ne {c : Char} {cs : Str} (h : c ≠ '\x1b') :
    stripAnsi (c :: cs) = c :: stripAnsi cs := by
  unfold stripAnsi
  rw [stripA.eq_def]
  simp [h]

theorem stripAnsi_esc_bracket {cs : Str} :
    stripAnsi ('\x1b' :: '[' :: cs) = stripA true cs := by
  simp [stripAnsi, stripA]

theorem stripA_true_skip {c : Char} {cs : Str}
    (h : ¬(0x40 ≤ c.toNat ∧ c.toNat ≤ 0x7e)) :
    stripA true (c :: cs) = stripA true cs := by
  simp only [stripA, if_neg h]

theorem stripA_true_final {c : Char} {cs : Str}
    (h : 0x40 ≤ c.toNat ∧ c.toNat ≤ 0x7e) :
    stripA true (c :: cs) = stripA false cs := by
  simp only [stripA, if_pos h]

theorem stripAnsi_no_esc {cs : Str} (h : '\x1b' ∉ cs) : stripAnsi cs = cs := by
  induction cs with
  | nil => rfl
  | cons c rest ih =>
    have hc : c ≠ '\x1b' := fun hh => h (hh ▸ List.mem_cons_self c rest)
    rw [stripAnsi_cons_ne hc, ih (fun hh => h (List.mem_cons_of_mem c hh))]

theorem stripA_true_params {ps cs : Str} (h : IsSgrParams ps) :
    stripA true (ps ++ 'm' :: cs) = stripAnsi cs := by
  induction ps with
  | nil =>
    simpa using @stripA_true_final 'm' cs (by decide)
  | cons c rest ih =>
    have hc := h c (List.mem_cons_self c rest)
    have : ¬(0x40 ≤ c.toNat ∧ c.toNat ≤ 0x7e) := by omega
    rw [List.cons_append, stripA_true_skip this,
      ih (fun d hd => h d (List.mem_cons_of_mem c hd))]

theorem stripAnsi_sgr_append {ps cs : Str} (h : IsSgrParams ps) :
    stripAnsi (sgr ps ++ cs) = stripAnsi cs := by
  have : sgr ps ++ cs = '\x1b' :: '[' :: (ps ++ 'm' :: cs) := by
    simp [sgr]
  rw [this, stripAnsi_esc_bracket, stripA_true_params h]

theorem IsSgr.strip_append {e cs : Str} (h : IsSgr e) :
    stripAnsi (e ++ cs) = stripAnsi cs := by
  obtain ⟨ps, rfl, hps⟩ := h
  exact stripAnsi_sgr_append hps

theorem IsSgr.no_nl {e : Str} (h : IsSgr e) : '\n' ∉ e := by
  obtain ⟨ps, rfl, hps⟩ := h
  intro hmem
  simp only [sgr, List.mem_cons, List.mem_append, List.mem_singleton] at hmem
  rcases hmem with (h1 | h1 | h1) | h1
  · exact absurd h1 (by decide)
  · exact absurd h1 (by decide)
  · have h2 := hps _ h1
    have h3 : ('\n').toNat = 10 := rfl
    omega
  · exact absurd h1 (by decide)

/-! ## Decimal digits and the color escapes -/

theorem digitChar_range (n : Nat) :
    48 ≤ (digitChar n).toNat ∧ (digitChar n).toNat ≤ 57 := by
  unfold digitChar
  split <;> decide

theorem natDigitsAux_range {fuel n : Nat} {c : Char}
    (h : c ∈ natDigitsAux fuel n) : 48 ≤ c.toNat ∧ c.toNat ≤ 57 := by
  induction fuel generalizing n with
  | zero => simp [natDigitsAux] at h
  | succ fuel ih =>
    unfold natDigitsAux at h
    split at h
    · simp only [List.mem_singleton] at h
      exact h ▸ digitChar_range n
    · rcases List.mem_append.mp h with h1 | h1
      · exact ih h1
      · simp only [List.mem_singleton] at h1
        exact h1 ▸ digitChar_range (n % 10)

theorem natDigits_range {n : Nat} {c : Char} (h : c ∈ natDigits n) :
    48 ≤ c.toNat ∧ c.toNat ≤ 57 := natDigitsAux_range h

theorem IsSgrParams.append_params {a b : Str} (h1 : IsSgrParams a) (h2 : IsSgrParams b) :
    IsSgrParams (a ++ b) := by
  intro c hc
  rcases List.mem_append.mp hc with h | h
  · exact h1 c h
  · exact h2 c h

theorem IsSgrParams.cons {c : Char} {b : Str}
    (hc : 0x20 ≤ c.toNat ∧ c.toNat ≤ 0x3f) (h : IsSgrParams b) :
    IsSgrParams (c :: b) := by
  intro d hd
  rcases List.mem_cons.mp hd with h1 | h1
  · exact h1 ▸ hc
  · exact h d h1

theorem isSgrParams_natDigits (n : Nat) : IsSgrParams (natDigits n) := by
  intro c hc
  have := natDigits_range hc
  omega

theorem colorParams_isSgrParams (pre : Str) (r g b : Nat)
    (hpre : IsSgrParams pre) :
    IsSgrParams (pre ++ natDigits r ++ ';' :: natDigits g ++ ';' :: natDigits b) := by
  have hsemi : (0x20 ≤ (';').toNat ∧ (';').toNat ≤ 0x3f) := by decide
  exact ((hpre.append_params (isSgrParams_natDigits r)).append_params
      (IsSgrParams.cons hsemi (isSgrParams_natDigits g))).append_params
    (IsSgrParams.cons hsemi (isSgrParams_natDigits b))

theorem isSgrParams_482 : IsSgrParams ("48;2;".data) := by decide

theorem isSgrParams_382 : IsSgrParams ("38;2;".data) := by decide

theorem bgEscape_isSgr (c : Color) : IsSgr (bgEscape c) :=
  ⟨_, rfl, colorParams_isSgrParams _ c.r c.g c.b isSgrParams_482⟩

theorem fgEscape_isSgr (c : Color) : IsSgr (fgEscape c) :=
  ⟨_, rfl, colorParams_isSgrParams _ c.r c.g c.b isSgrParams_382⟩

theorem Interleaved.strip {cs ts : Str} (h : Interleaved cs ts) :
    stripAnsi cs = ts := by
  induction h with
  | nil => rfl
  | txt hne _ ih => rw [stripAnsi_cons_ne hne, ih]
  | esc he _ ih => rw [he.strip_append, ih]

theorem Interleaved.of_no_esc {ts : Str} (h : '\x1b' ∉ ts) :
    Interleaved ts ts := by
  induction ts with
  | nil => exact Interleaved.nil
  | cons c rest ih =>
    exact Interleaved.txt (fun hh => h (hh ▸ List.mem_cons_self c rest))
      (ih fun hh => h (List.mem_cons_of_mem c hh))

theorem Interleaved.append {a b c d : Str} (h1 : Interleaved a b)
    (h2 : Interleaved c d) : Interleaved (a ++ c) (b ++ d) := by
  induction h1 with
  | nil => exact h2
  | txt hne _ ih => exact Interleaved.txt hne ih
  | esc he _ ih =>
    rw [List.append_assoc]
    exact Interleaved.esc he ih

theorem Interleaved.sgr_nil {e : Str} (he : IsSgr e) : Interleaved e [] := by
  have := Interleaved.esc he Interleaved.nil
  simpa using this

/-! ## Facts about `splitNl`, `linesWithEndings` and `joinNl` -/

theorem splitNl_nil : splitNl [] = [[]] := rfl

theorem splitNl_nl {cs : Str} : splitNl ('\n' :: cs) = [] :: splitNl cs := by
  rw [splitNl.eq_def]
  simp

theorem splitNl_ne_nil (cs : Str) : splitNl cs ≠ [] := by
  induction cs with
  | nil => simp [splitNl]
  | cons c rest ih =>
    rw [splitNl.eq_def]
    by_cases h : c = '\n'
    · simp [h]
    · simp only [if_neg h]
      cases hr : splitNl rest with
      | nil => simp
      | cons l ls => simp

theorem splitNl_cons_ne {c : Char} {cs l : Str} {ls : List Str}
    (h : c ≠ '\n') (hs : splitNl cs = l :: ls) :
    splitNl (c :: cs) = (c :: l) :: ls := by
  rw [splitNl.eq_def]
  simp only [if_neg h, hs]

theorem splitNl_append_no_nl {a cs l : Str} {ls : List Str}
    (ha : '\n' ∉ a) (hs : splitNl cs = l :: ls) :
    splitNl (a ++ cs) = (a ++ l) :: ls := by
  induction a with
  | nil => simpa using hs
  | cons c rest ih =>
    have hc : c ≠ '\n' := fun hh => ha (hh ▸ List.mem_cons_self c rest)
    have hrest := ih (fun hh => ha (List.mem_cons_of_mem c hh))
    rw [List.cons_append, splitNl_cons_ne hc hrest, List.cons_append]

theorem splitNl_no_nl {a : Str} (ha : '\n' ∉ a) : splitNl a = [a] := by
  have := @splitNl_append_no_nl _ [] [] [] ha rfl
  simpa using this

theorem splitNl_joinNl {ls : List Str} (hne : ls ≠ [])
    (h : ∀ l ∈ ls, '\n' ∉ l) : splitNl (joinNl ls) = ls := by
  induction ls with
  | nil => exact absurd rfl hne
  | cons l rest ih =>
    cases rest with
    | nil => exact splitNl_no_nl (h l (List.mem_cons_self l []))
    | cons l2 rest2 =>
      have hrest := ih (by simp) (fun x hx => h x (List.mem_cons_of_mem l hx))
      have hjoin : joinNl (l :: l2 :: rest2) = l ++ '\n' :: joinNl (l2 :: rest2) := rfl
      rw [hjoin, splitNl_append_no_nl (h l (List.mem_cons_self l _))
        (by rw [splitNl_nl, hrest]), List.append_nil]

/-- Segment-wise correspondence: splitting an interleaving at newlines
gives segments whose strip is the corresponding segment of the text. -/
theorem Interleaved.splitNl_forall₂ {cs ts : Str} (h : Interleaved cs ts) :
    List.Forall₂ (fun s t => stripAnsi s = t) (splitNl cs) (splitNl ts) := by
  induction h with
  | nil => exact List.Forall₂.cons rfl List.Forall₂.nil
  | txt hne h2 ih =>
    rename_i c cs' ts'
    by_cases hc : c = '\n'
    · subst hc
      rw [splitNl_nl, splitNl_nl]
      exact List.Forall₂.cons rfl ih
    · obtain ⟨l, ls, hls⟩ : ∃ l ls, splitNl cs' = l :: ls := by
        cases hcs : splitNl cs' with
        | nil => exact absurd hcs (splitNl_ne_nil cs')
        | cons l ls => exact ⟨l, ls, rfl⟩
      obtain ⟨t, tt, hts⟩ : ∃ t tt, splitNl ts' = t :: tt := by
        cases hts : splitNl ts' with
        | nil => exact absurd hts (splitNl_ne_nil ts')
        | cons t tt => exact ⟨t, tt, rfl⟩
      rw [splitNl_cons_ne hc hls, splitNl_cons_ne hc hts]
      rw [hls, hts] at ih
      cases ih with
      | cons hrel hrest =>
        exact List.Forall₂.cons (by rw [stripAnsi_cons_ne hne, hrel]) hrest
  | esc he h2 ih =>
    rename_i e cs' ts'
    obtain ⟨l, ls, hls⟩ : ∃ l ls, splitNl cs' = l :: ls := by
      cases hcs : splitNl cs' with
      | nil => exact absurd hcs (splitNl_ne_nil cs')
      | cons l ls => exact ⟨l, ls, rfl⟩
    obtain ⟨t, tt, hts⟩ : ∃ t tt, splitNl ts' = t :: tt := by
      cases hts : splitNl ts' with
      | nil => exact absurd hts (splitNl_ne_nil ts')
      | cons t tt => exact ⟨t, tt, rfl⟩
    rw [splitNl_append_no_nl he.no_nl hls, hts]
    rw [hls, hts] at ih
    cases ih with
    | cons hrel hrest =>
      exact List.Forall₂.cons (by rw [he.strip_append, hrel]) hrest

theorem linesWithEndings_flatten (cs : Str) :
    (linesWithEndings cs).flatten = cs := by
  induction cs with
  | nil => rfl
  | cons c rest ih =>
    rw [linesWithEndings.eq_def]
    by_cases h : c = '\n'
    · subst h; simp [ih]
    · simp only [if_neg h]
      cases hr : linesWithEndings rest with
      | nil =>
        rw [hr] at ih
        simp only [List.flatten_nil] at ih
        simp [← ih]
      | cons l ls =>
        rw [hr] at ih
        simp only [List.flatten_cons] at ih ⊢
        simp [ih]

/-! ## The paint layer appends, and its output unescapes to its input -/

theorem paint_append {t : Str} {fg bg : Option Color} {buf : Str} :
    paint t fg bg buf = buf ++ paint t fg bg [] := by
  cases fg <;> cases bg <;> simp [paint]

theorem paint_ranges_append {rs : List (Style × Str)} {bg : Option Color}
    {ap : Bool} {buf : Str} :
    paint_ranges rs bg ap buf = buf ++ paint_ranges rs bg ap [] := by
  induction rs generalizing buf with
  | nil => simp [paint_ranges]
  | cons r rest ih =>
    show paint_ranges rest bg ap (paint r.2 _ bg buf) =
      buf ++ paint_ranges rest bg ap (paint r.2 _ bg [])
    rw [ih, paint_append, List.append_assoc,
      ← @ih (paint r.2 (if ap then some r.1.foreground else none) bg [])]

theorem paintChunk_fst_append {σ θ η : Type} {ex : Externals σ θ η}
    {bg : Option Color} {ap : Bool} {buf : Str} {h : η} {line : Str} :
    (paintChunk ex bg ap (buf, h) line).1 =
      buf ++ (paintChunk ex bg ap ([], h) line).1 := by
  cases bg with
  | none =>
    simp only [paintChunk]
    exact paint_ranges_append
  | some c =>
    simp only [paintChunk]
    rw [@paint_ranges_append _ _ _ (buf ++ bgEscape c),
      @paint_ranges_append _ _ _ (([] : Str) ++ bgEscape c)]
    simp [List.append_assoc]

theorem paintChunk_snd {σ θ η : Type} {ex : Externals σ θ η}
    {bg : Option Color} {ap : Bool} {buf : Str} {h : η} {line : Str} :
    (paintChunk ex bg ap (buf, h) line).2 = (ex.highlight h line).2 := by
  cases bg <;> simp [paintChunk]

theorem foldl_paintChunk_append {σ θ η : Type} {ex : Externals σ θ η}
    {bg : Option Color} {ap : Bool} (lns : List Str) (buf : Str) (h : η) :
    List.foldl (paintChunk ex bg ap) (buf, h) lns =
      (buf ++ (List.foldl (paintChunk ex bg ap) (([] : Str), h) lns).1,
        (List.foldl (paintChunk ex bg ap) (([] : Str), h) lns).2) := by
  induction lns generalizing buf h with
  | nil => simp
  | cons l rest ih =>
    rw [List.foldl_cons, List.foldl_cons]
    have hc : paintChunk ex bg ap (buf, h) l =
        ((paintChunk ex bg ap (buf, h) l).1, (paintChunk ex bg ap (buf, h) l).2) := rfl
    rw [hc, paintChunk_fst_append, paintChunk_snd]
    have hc0 : paintChunk ex bg ap (([] : Str), h) l =
        ((paintChunk ex bg ap (([] : Str), h) l).1, (paintChunk ex bg ap (([] : Str), h) l).2) := rfl
    rw [ih, hc0, paintChunk_snd,
      ih ((paintChunk ex bg ap (([] : Str), h) l).1) ((ex.highlight h l).2),
      List.append_assoc]

theorem paint_text_append {σ θ η : Type} {ex : Externals σ θ η} {text : Str}
    {syn : σ} {bg : Option Color} {config : Config θ} {ap : Bool} {buf : Str} :
    paint_text ex text syn bg config ap buf =
      buf ++ paint_text ex text syn bg config ap [] := by
  unfold paint_text
  rw [foldl_paintChunk_append]

theorem paint_interleaved {t : Str} {fgc : Option Color} (h : '\x1b' ∉ t) :
    Interleaved (paint t fgc none []) t := by
  cases fgc with
  | none => simpa [paint] using Interleaved.of_no_esc h
  | some c =>
    show Interleaved ([] ++ fgEscape c ++ t) t
    simpa using Interleaved.append (Interleaved.sgr_nil (fgEscape_isSgr c))
      (Interleaved.of_no_esc h)

theorem paint_ranges_interleaved {rs : List (Style × Str)} {ap : Bool}
    (h : ∀ p ∈ rs, '\x1b' ∉ p.2) :
    Interleaved (paint_ranges rs none ap []) (rs.map Prod.snd).flatten := by
  induction rs with
  | nil => exact Interleaved.nil
  | cons r rest ih =>
    show Interleaved (paint_ranges rest none ap (paint r.2 _ none [])) _
    rw [paint_ranges_append]
    simp only [List.map_cons, List.flatten_cons]
    exact Interleaved.append
      (paint_interleaved (h r (List.mem_cons_self r rest)))
      (ih fun p hp => h p (List.mem_cons_of_mem r hp))

theorem paintChunk_interleaved {σ θ η : Type} {ex : Externals σ θ η}
    {bg : Option Color} {ap : Bool} {h : η} {line : Str}
    (hgood : GoodHl ex) (hesc : '\x1b' ∉ line) :
    Interleaved (paintChunk ex bg ap ([], h) line).1 line := by
  have hranges : ((ex.highlight h line).1.map Prod.snd).flatten = line := hgood h line
  have hmem : ∀ p ∈ (ex.highlight h line).1, '\x1b' ∉ p.2 := by
    intro p hp hin
    exact hesc (hranges ▸ List.mem_flatten.mpr ⟨p.2, List.mem_map_of_mem Prod.snd hp, hin⟩)
  cases bg with
  | none =>
    simpa [paintChunk, hranges] using paint_ranges_interleaved hmem
  | some c =>
    show Interleaved (paint_ranges (ex.highlight h line).1 none ap ([] ++ bgEscape c)) line
    rw [paint_ranges_append]
    have h1 := @paint_ranges_interleaved _ ap hmem
    rw [hranges] at h1
    have h2 := Interleaved.append (Interleaved.sgr_nil (bgEscape_isSgr c)) h1
    simpa using h2

theorem foldl_paintChunk_interleaved {σ θ η : Type} {ex : Externals σ θ η}
    {bg : Option Color} {ap : Bool} (lns : List Str) (h : η)
    (hgood : GoodHl ex) (hesc : ∀ l ∈ lns, '\x1b' ∉ l) :
    Interleaved (List.foldl (paintChunk ex bg ap) (([] : Str), h) lns).1
      lns.flatten := by
  induction lns generalizing h with
  | nil => exact Interleaved.nil
  | cons l rest ih =>
    rw [List.foldl_cons]
    have hc : paintChunk ex bg ap (([] : Str), h) l =
        ((paintChunk ex bg ap (([] : Str), h) l).1, (paintChunk ex bg ap (([] : Str), h) l).2) := rfl
    rw [hc, foldl_paintChunk_append, paintChunk_snd]
    simp only [List.flatten_cons]
    exact Interleaved.append
      (paintChunk_interleaved hgood (hesc l (List.mem_cons_self l rest)))
      (ih _ fun x hx => hesc x (List.mem_cons_of_mem l hx))

/-- The central painting fact: for escape-free text, the painted buffer
is an interleaving of that text with SGR escapes (hence unescapes back
to the text). -/
theorem paint_text_interleaved {σ θ η : Type} {ex : Externals σ θ η}
    {text : Str} {syn : σ} {bg : Option Color} {config : Config θ} {ap : Bool}
    (hgood : GoodHl ex) (hesc : '\x1b' ∉ text) :
    Interleaved (paint_text ex text syn bg config ap []) text := by
  unfold paint_text
  have hmem : ∀ l ∈ linesWithEndings text, '\x1b' ∉ l := by
    intro l hl hin
    exact hesc ((linesWithEndings_flatten text) ▸
      List.mem_flatten.mpr ⟨l, hl, hin⟩)
  have := @foldl_paintChunk_interleaved _ _ _ _ bg ap
    (linesWithEndings text) (ex.highlight_lines_new syn config.theme) hgood hmem
  rwa [linesWithEndings_flatten] at this

theorem is_empty_iff {σ : Type} (p : Painter σ) :
    p.is_empty = true ↔ p.minus_lines = [] ∧ p.plus_lines = [] := by
  simp [Painter.is_empty, List.length_eq_zero]

theorem writeln_plan_nil {σ : Type} {st : RunState σ} (hp : st.plan = [])
    (s : Str) : st.writeln s = (true, { st with written := st.written ++ [s] }) := by
  simp [RunState.writeln, hp]

theorem paint_and_emit_text_none {σ θ η : Type} {config : Config θ}
    {ex : Externals σ θ η} {st : RunState σ} {text : Str}
    {bg : Option Color} {ap : Bool} (h : st.painter.synRef = none) :
    Painter.paint_and_emit_text config ex st text bg ap = Res.panicked := by
  simp [Painter.paint_and_emit_text, h]

theorem paint_and_emit_text_some_ne_panicked {σ θ η : Type} {config : Config θ}
    {ex : Externals σ θ η} {st : RunState σ} {text : Str}
    {bg : Option Color} {ap : Bool} {syn : σ}
    (h : st.painter.synRef = some syn) :
    Painter.paint_and_emit_text config ex st text bg ap ≠ Res.panicked := by
  intro hcon
  simp only [Painter.paint_and_emit_text] at hcon
  rw [h] at hcon
  split at hcon
  · rename_i heq; cases heq
  · split at hcon <;> cases hcon

theorem paint_and_emit_text_spec {σ θ η : Type} {config : Config θ}
    {ex : Externals σ θ η} {st : RunState σ} {text : Str}
    {bg : Option Color} {ap : Bool} {syn : σ}
    (hs : st.painter.synRef = some syn) (hp : st.plan = []) :
    Painter.paint_and_emit_text config ex st text bg ap =
      Res.ok { painter := { st.painter with output_buffer := [] },
               written := st.written ++
                 [paint_text ex text syn bg config ap st.painter.output_buffer],
               plan := [] } := by
  obtain ⟨⟨m, p, sref, ob⟩, w, pl⟩ := st
  replace hs : sref = some syn := hs
  replace hp : pl = ([] : List Bool) := hp
  subst hs hp
  simp [Painter.paint_and_emit_text, RunState.writeln]

theorem writeln_true {σ : Type} {st st' : RunState σ} {s : Str}
    (h : st.writeln s = (true, st')) :
    st'.written = st.written ++ [s] ∧ st'.painter = st.painter ∧
      (st.plan = [] → st'.plan = []) := by
  unfold RunState.writeln at h
  split at h
  · cases h
    exact ⟨rfl, rfl, fun hh => hh⟩
  · split at h
    · cases h
      rename_i hplan _
      exact ⟨rfl, rfl, fun hh => by rw [hplan] at hh; cases hh⟩
    · cases h

theorem writeln_false {σ : Type} {st st' : RunState σ} {s : Str}
    (h : st.writeln s = (false, st')) :
    st'.written = st.written ∧ st'.painter = st.painter := by
  unfold RunState.writeln at h
  split at h
  · cases h
  · split at h
    · cases h
    · cases h
      exact ⟨rfl, rfl⟩

/-- Inversion for a successful `paint_and_emit_text`: the output buffer
is truncated, the line buffers and syntax reference are untouched, and
exactly one chunk was written. -/
theorem paint_and_emit_text_ok {σ θ η : Type} {config : Config θ}
    {ex : Externals σ θ η} {st st' : RunState σ} {text : Str}
    {bg : Option Color} {ap : Bool}
    (h : Painter.paint_and_emit_text config ex st text bg ap = Res.ok st') :
    st'.painter.output_buffer = [] ∧
      st'.painter.minus_lines = st.painter.minus_lines ∧
      st'.painter.plus_lines = st.painter.plus_lines ∧
      st'.painter.synRef = st.painter.synRef ∧
      (∃ w, st'.written = st.written ++ [w]) ∧
      (st.plan = [] → st'.plan = []) := by
  simp only [Painter.paint_and_emit_text] at h
  split at h
  · cases h
  · rename_i syn heq
    split at h
    · rename_i pr st2 hw
      cases h
      obtain ⟨hw1, hw2, hw3⟩ := writeln_true hw
      refine ⟨rfl, ?_, ?_, ?_, ⟨_, hw1⟩, hw3⟩
      · simp [hw2]
      · simp [hw2]
      · simp [hw2]
    · cases h

theorem flush_empty {σ θ η : Type} {config : Config θ} {ex : Externals σ θ η}
    {st : RunState σ} (h1 : st.painter.minus_lines = [])
    (h2 : st.painter.plus_lines = []) :
    Painter.paint_and_emit_buffered_lines config ex st = Res.ok st := by
  unfold Painter.paint_and_emit_buffered_lines
  rw [if_pos ((is_empty_iff st.painter).mpr ⟨h1, h2⟩)]

/-- The flush on a successful all-writes path: both blocks are written
in order (minus first), both buffers are cleared, the output buffer ends
empty and the syntax reference is preserved. -/
theorem flush_spec {σ θ η : Type} {config : Config θ} {ex : Externals σ θ η}
    {st : RunState σ} {syn : σ} (hs : st.painter.synRef = some syn)
    (hp : st.plan = []) (hne : ¬(st.painter.minus_lines = [] ∧ st.painter.plus_lines = [])) :
    Painter.paint_and_emit_buffered_lines config ex st =
      Res.ok { painter := { minus_lines := [], plus_lines := [],
                            synRef := some syn, output_buffer := [] },
               written := st.written ++ [minusBlock config ex syn st, plusBlock config ex syn st],
               plan := [] } := by
  obtain ⟨⟨m, p, sref, ob⟩, w, pl⟩ := st
  replace hs : sref = some syn := hs
  replace hp : pl = ([] : List Bool) := hp
  subst hs hp
  have hefalse : (Painter.mk m p (some syn) ob).is_empty = false :=
    Bool.eq_false_iff.mpr (fun hb => hne ((is_empty_iff _).mp hb))
  simp [Painter.paint_and_emit_buffered_lines, hefalse,
    paint_and_emit_text_spec, minusBlock, plusBlock]

/-- Inversion for a successful flush: both buffers are cleared together,
the syntax reference is preserved, the written log only grows, and the
output buffer is empty provided it was empty before. -/
theorem flush_ok {σ θ η : Type} {config : Config θ} {ex : Externals σ θ η}
    {st st' : RunState σ}
    (h : Painter.paint_and_emit_buffered_lines config ex st = Res.ok st') :
    st'.painter.minus_lines = [] ∧ st'.painter.plus_lines = [] ∧
      st'.painter.synRef = st.painter.synRef ∧
      (∃ ws, st'.written = st.written ++ ws) ∧
      (st.painter.output_buffer = [] → st'.painter.output_buffer = []) ∧
      (st.plan = [] → st'.plan = []) := by
  unfold Painter.paint_and_emit_buffered_lines at h
  split at h
  · cases h
    rename_i he
    obtain ⟨h1, h2⟩ := (is_empty_iff st.painter).mp he
    exact ⟨h1, h2, rfl, ⟨[], by simp⟩, fun hh => hh, fun hh => hh⟩
  · split at h
    · rename_i stA hA
      split at h
      · rename_i stC hB
        cases h
        obtain ⟨hbufA, hmA, hpA, hsA, ⟨wA, hwA⟩, hplA⟩ := paint_and_emit_text_ok hA
        obtain ⟨hbufC, hmC, hpC, hsC, ⟨wC, hwC⟩, hplC⟩ := paint_and_emit_text_ok hB
        refine ⟨?_, rfl, ?_, ⟨[wA, wC], ?_⟩, fun _ => hbufC, ?_⟩
        · simpa using hmC
        · exact hsC.trans hsA
        · show stC.written = st.written ++ [wA, wC]
          rw [hwC]
          show stA.written ++ [wC] = st.written ++ [wA, wC]
          rw [hwA, List.append_assoc]
          rfl
        · intro hh
          exact hplC (hplA hh)
      · cases h
      · cases h
    · cases h
    · cases h

/-! ## Step lemmas for the classifier loop -/

theorem strStarts_dc_false {l : Str} {c : Char} (h : l.head? = some c)
    (hd : c ≠ 'd') (hc : c ≠ 'c') :
    strStarts l "diff --".data = false ∧ strStarts l "commit".data = false := by
  cases l with
  | nil => simp at h
  | cons c' rest =>
    simp only [List.head?_cons, Option.some.injEq] at h
    subst h
    exact ⟨strStarts_head_ne hd, strStarts_head_ne hc⟩

theorem writelnRaw_plan_nil {σ : Type} {st : RunState σ} (state : State)
    (hp : st.plan = []) (l : Str) :
    writelnRaw state st l =
      Res.ok (state, { st with written := st.written ++ [l] }) := by
  simp [writelnRaw, writeln_plan_nil hp]

/-- A hunk-header line (`"@@"` prefix after stripping): transition to
`HunkMeta`, touch nothing else, emit the raw line. -/
theorem step_atat {σ θ η : Type} {config : Config θ} {ex : Externals σ θ η}
    {state : State} {st : RunState σ} {l : Str}
    (h : strStarts (ex.strip_ansi_codes l) "@@".data = true)
    (hp : st.plan = []) :
    deltaStep config ex state st l =
      Res.ok (State.HunkMeta, { st with written := st.written ++ [l] }) := by
  obtain ⟨rest, hrest⟩ := strStarts_atat h
  have hdc := strStarts_dc_false (l := ex.strip_ansi_codes l) (c := '@')
    (by rw [hrest]; rfl) (by decide) (by decide)
  simp [deltaStep, hdc.1, hdc.2, h, writelnRaw_plan_nil State.HunkMeta hp]

/-- A `'+'` line in a hunk state with a syntax set: push onto the plus
buffer, no flush, no output, transition to `HunkPlus`. -/
theorem step_plus {σ θ η : Type} {config : Config θ} {ex : Externals σ θ η}
    {state : State} {st : RunState σ} {l : Str}
    (hhead : (ex.strip_ansi_codes l).head? = some '+')
    (hst : inHunk state)
    (hsyn : st.painter.synRef.isSome = true) :
    deltaStep config ex state st l =
      Res.ok (State.HunkPlus,
        { st with painter := { st.painter with
            plus_lines := st.painter.plus_lines ++ [ex.strip_ansi_codes l] } }) := by
  have hmark := strStarts_markers_false hhead (by decide) (by decide) (by decide)
  simp [deltaStep, hmark.1, hmark.2.1, hmark.2.2, hhead, hst, hsyn]

/-- A `'-'` line in a hunk state other than `HunkPlus`, with a syntax
set: push onto the minus buffer, no flush, no output, transition to
`HunkMinus`. -/
theorem step_minus_no_flush {σ θ η : Type} {config : Config θ} {ex : Externals σ θ η}
    {state : State} {st : RunState σ} {l : Str}
    (hhead : (ex.strip_ansi_codes l).head? = some '-')
    (hst : inHunk state) (hnp : state ≠ State.HunkPlus)
    (hsyn : st.painter.synRef.isSome = true) :
    deltaStep config ex state st l =
      Res.ok (State.HunkMinus,
        { st with painter := { st.painter with
            minus_lines := st.painter.minus_lines ++ [ex.strip_ansi_codes l] } }) := by
  have hmark := strStarts_markers_false hhead (by decide) (by decide) (by decide)
  simp [deltaStep, hmark.1, hmark.2.1, hmark.2.2, hhead, hst, hsyn, hnp]

/-- A `'-'` line in state `HunkPlus` with empty buffers: the flush is a
no-op, the line is pushed, transition to `HunkMinus`. -/
theorem step_minus_flush_empty {σ θ η : Type} {config : Config θ}
    {ex : Externals σ θ η} {st : RunState σ} {l : Str}
    (hhead : (ex.strip_ansi_codes l).head? = some '-')
    (hm : st.painter.minus_lines = []) (hpl : st.painter.plus_lines = [])
    (hsyn : st.painter.synRef.isSome = true) :
    deltaStep config ex State.HunkPlus st l =
      Res.ok (State.HunkMinus,
        { st with painter := { st.painter with
            minus_lines := st.painter.minus_lines ++ [ex.strip_ansi_codes l] } }) := by
  have hmark := strStarts_markers_false hhead (by decide) (by decide) (by decide)
  simp [deltaStep, hmark.1, hmark.2.1, hmark.2.2, hhead, hsyn,
    flush_empty hm hpl, inHunk]

/-- A `'-'` line in state `HunkPlus` with pending content: the pending
buffers are flushed first (two blocks written), then the line starts the
new minus buffer; transition to `HunkMinus`. -/
theorem step_minus_flush {σ θ η : Type} {config : Config θ}
    {ex : Externals σ θ η} {st : RunState σ} {l : Str} {syn : σ}
    (hhead : (ex.strip_ansi_codes l).head? = some '-')
    (hne : ¬(st.painter.minus_lines = [] ∧ st.painter.plus_lines = []))
    (hsyn : st.painter.synRef = some syn) (hp : st.plan = []) :
    deltaStep config ex State.HunkPlus st l =
      Res.ok (State.HunkMinus,
        { painter := { minus_lines := [ex.strip_ansi_codes l], plus_lines := [],
                       synRef := some syn, output_buffer := [] },
          written := st.written ++ [minusBlock config ex syn st, plusBlock config ex syn st],
          plan := [] }) := by
  have hmark := strStarts_markers_false hhead (by decide) (by decide) (by decide)
  simp [deltaStep, hmark.1, hmark.2.1, hmark.2.2, hhead,
    Option.isSome_iff_exists.mpr ⟨syn, hsyn⟩, flush_spec hsyn hp hne, inHunk]

/-- Any line that matches no marker while the state is not a hunk state
or no syntax is set: emitted verbatim, nothing else changes. -/
theorem step_fallthrough {σ θ η : Type} {config : Config θ}
    {ex : Externals σ θ η} {state : State} {st : RunState σ} {l : Str}
    (h1 : strStarts (ex.strip_ansi_codes l) "diff --".data = false)
    (h2 : strStarts (ex.strip_ansi_codes l) "commit".data = false)
    (h3 : strStarts (ex.strip_ansi_codes l) "@@".data = false)
    (h4 : ¬(inHunk state ∧ st.painter.synRef.isSome = true))
    (hp : st.plan = []) :
    deltaStep config ex state st l =
      Res.ok (state, { st with written := st.written ++ [l] }) := by
  simp [deltaStep, h1, h2, h3, h4, writelnRaw_plan_nil state hp]

theorem writelnRaw_ok {σ : Type} {state0 state' : State} {st st' : RunState σ}
    {l : Str} (h : writelnRaw state0 st l = Res.ok (state', st')) :
    state' = state0 ∧ st'.painter = st.painter ∧
      st'.written = st.written ++ [l] ∧ (st.plan = [] → st'.plan = []) := by
  unfold writelnRaw at h
  split at h
  · rename_i st2 hw
    cases h
    obtain ⟨h1, h2, h3⟩ := writeln_true hw
    exact ⟨rfl, h2, h1, h3⟩
  · cases h

/-- A context line (hunk state, syntax set, first char neither `'-'` nor
`'+'`, no marker) with empty buffers: the flush is a no-op and the line
itself is painted and emitted immediately with no background. -/
theorem step_context_empty {σ θ η : Type} {config : Config θ}
    {ex : Externals σ θ η} {state : State} {st : RunState σ} {l : Str} {syn : σ}
    (h3 : strStarts (ex.strip_ansi_codes l) "@@".data = false)
    (hminus : (ex.strip_ansi_codes l).head? ≠ some '-')
    (hplus : (ex.strip_ansi_codes l).head? ≠ some '+')
    (hst : inHunk state) (hsyn : st.painter.synRef = some syn)
    (hm : st.painter.minus_lines = []) (hpl : st.painter.plus_lines = [])
    (hd : strStarts (ex.strip_ansi_codes l) "diff --".data = false)
    (hc : strStarts (ex.strip_ansi_codes l) "commit".data = false)
    (hp : st.plan = []) :
    deltaStep config ex state st l =
      Res.ok (State.HunkZero,
        { painter := { st.painter with output_buffer := [] },
          written := st.written ++ [paint_text ex (ex.strip_ansi_codes l) syn none
            config true st.painter.output_buffer],
          plan := [] }) := by
  have hsome : st.painter.synRef.isSome = true := by rw [hsyn]; rfl
  simp only [deltaStep, hd, hc, h3, Bool.false_eq_true, if_false, hst, hsome,
    and_self, if_true, true_and, if_pos]
  rw [flush_empty hm hpl]
  cases hh : (ex.strip_ansi_codes l).head? with
  | none =>
    simp [paint_and_emit_text_spec hsyn hp]
  | some c =>
    have hcm : c ≠ '-' := fun hc2 => hminus (hc2 ▸ hh)
    have hcp : c ≠ '+' := fun hc2 => hplus (hc2 ▸ hh)
    simp [hcm, hcp, paint_and_emit_text_spec hsyn hp]

/-- A context line with pending buffered content: the pending blocks are
flushed (two writes) and then the line is painted and emitted. -/
theorem step_context_flush {σ θ η : Type} {config : Config θ}
    {ex : Externals σ θ η} {state : State} {st : RunState σ} {l : Str} {syn : σ}
    (h3 : strStarts (ex.strip_ansi_codes l) "@@".data = false)
    (hminus : (ex.strip_ansi_codes l).head? ≠ some '-')
    (hplus : (ex.strip_ansi_codes l).head? ≠ some '+')
    (hst : inHunk state) (hsyn : st.painter.synRef = some syn)
    (hne : ¬(st.painter.minus_lines = [] ∧ st.painter.plus_lines = []))
    (hd : strStarts (ex.strip_ansi_codes l) "diff --".data = false)
    (hc : strStarts (ex.strip_ansi_codes l) "commit".data = false)
    (hp : st.plan = []) :
    deltaStep config ex state st l =
      Res.ok (State.HunkZero,
        { painter := { minus_lines := [], plus_lines := [],
                       synRef := some syn, output_buffer := [] },
          written := st.written ++ [minusBlock config ex syn st,
            plusBlock config ex syn st,
            paint_text ex (ex.strip_ansi_codes l) syn none config true []],
          plan := [] }) := by
  have hsome : st.painter.synRef.isSome = true := by rw [hsyn]; rfl
  simp only [deltaStep, hd, hc, h3, Bool.false_eq_true, if_false, hst, hsome,
    and_self, if_true, true_and, if_pos]
  rw [flush_spec hsyn hp hne]
  cases hh : (ex.strip_ansi_codes l).head? with
  | none =>
    simp [Painter.paint_and_emit_text, RunState.writeln, List.append_assoc]
  | some c =>
    have hcm : c ≠ '-' := fun hc2 => hminus (hc2 ▸ hh)
    have hcp : c ≠ '+' := fun hc2 => hplus (hc2 ▸ hh)
    simp [hcm, hcp, Painter.paint_and_emit_text, RunState.writeln, List.append_assoc]

/-- A `"diff --"` line with empty buffers: no output from the flush, the
syntax reference is re-resolved, the raw line is emitted, state becomes
`DiffMeta`. -/
theorem step_diff_empty {σ θ η : Type} {config : Config θ}
    {ex : Externals σ θ η} {state : State} {st : RunState σ} {l : Str}
    (hd : strStarts (ex.strip_ansi_codes l) "diff --".data = true)
    (hm : st.painter.minus_lines = []) (hpl : st.painter.plus_lines = [])
    (hp : st.plan = []) :
    deltaStep config ex state st l =
      Res.ok (State.DiffMeta,
        { st with
          painter := { st.painter with
                         synRef := newSyn ex (ex.strip_ansi_codes l) },
          written := st.written ++ [l] }) := by
  simp only [deltaStep, hd, if_true, if_pos]
  rw [flush_empty hm hpl]
  simp [newSyn, writelnRaw, RunState.writeln, hp]

/-- A `"diff --"` line with pending buffered content: the two pending
blocks are flushed with the *old* syntax reference, then the reference
is re-resolved and the raw line emitted. -/
theorem step_diff_flush {σ θ η : Type} {config : Config θ}
    {ex : Externals σ θ η} {state : State} {st : RunState σ} {l : Str} {syn : σ}
    (hd : strStarts (ex.strip_ansi_codes l) "diff --".data = true)
    (hsyn : st.painter.synRef = some syn)
    (hne : ¬(st.painter.minus_lines = [] ∧ st.painter.plus_lines = []))
    (hp : st.plan = []) :
    deltaStep config ex state st l =
      Res.ok (State.DiffMeta,
        { painter := { minus_lines := [], plus_lines := [],
                       synRef := newSyn ex (ex.strip_ansi_codes l), output_buffer := [] },
          written := st.written ++ [minusBlock config ex syn st,
            plusBlock config ex syn st, l],
          plan := [] }) := by
  simp only [deltaStep, hd, if_true, if_pos]
  rw [flush_spec hsyn hp hne]
  simp [newSyn, writelnRaw, RunState.writeln, List.append_assoc]

/-- A `"commit"` line with empty buffers. -/
theorem step_commit_empty {σ θ η : Type} {config : Config θ}
    {ex : Externals σ θ η} {state : State} {st : RunState σ} {l : Str}
    (hd : strStarts (ex.strip_ansi_codes l) "diff --".data = false)
    (hc : strStarts (ex.strip_ansi_codes l) "commit".data = true)
    (hm : st.painter.minus_lines = []) (hpl : st.painter.plus_lines = [])
    (hp : st.plan = []) :
    deltaStep config ex state st l =
      Res.ok (State.Commit, { st with written := st.written ++ [l] }) := by
  simp only [deltaStep, hd, hc, Bool.false_eq_true, if_false, if_true, if_pos]
  rw [flush_empty hm hpl]
  simp [writelnRaw_plan_nil State.Commit hp]

/-- A `"commit"` line with pending buffered content: flush first. -/
theorem step_commit_flush {σ θ η : Type} {config : Config θ}
    {ex : Externals σ θ η} {state : State} {st : RunState σ} {l : Str} {syn : σ}
    (hd : strStarts (ex.strip_ansi_codes l) "diff --".data = false)
    (hc : strStarts (ex.strip_ansi_codes l) "commit".data = true)
    (hsyn : st.painter.synRef = some syn)
    (hne : ¬(st.painter.minus_lines = [] ∧ st.painter.plus_lines = []))
    (hp : st.plan = []) :
    deltaStep config ex state st l =
      Res.ok (State.Commit,
        { painter := { minus_lines := [], plus_lines := [],
                       synRef := some syn, output_buffer := [] },
          written := st.written ++ [minusBlock config ex syn st,
            plusBlock config ex syn st, l],
          plan := [] }) := by
  simp only [deltaStep, hd, hc, Bool.false_eq_true, if_false, if_true, if_pos]
  rw [flush_spec hsyn hp hne]
  simp [writelnRaw, RunState.writeln, List.append_assoc]

theorem writelnRaw_ne_panicked {σ : Type} {state : State} {st : RunState σ}
    {l : Str} : writelnRaw state st l ≠ Res.panicked := by
  intro hcon
  unfold writelnRaw at hcon
  split at hcon <;> cases hcon

theorem flush_ne_panicked {σ θ η : Type} {config : Config θ}
    {ex : Externals σ θ η} {st : RunState σ} (hinv : SynInv st.painter) :
    Painter.paint_and_emit_buffered_lines config ex st ≠ Res.panicked := by
  intro hcon
  unfold Painter.paint_and_emit_buffered_lines at hcon
  split at hcon
  · cases hcon
  · rename_i he
    have hbuf : st.painter.minus_lines ≠ [] ∨ st.painter.plus_lines ≠ [] := by
      by_contra hcontra
      push_neg at hcontra
      exact he ((is_empty_iff st.painter).mpr hcontra)
    obtain ⟨syn, hsyn⟩ := Option.isSome_iff_exists.mp (hinv hbuf)
    split at hcon
    · rename_i stA hA
      split at hcon
      · cases hcon
      · cases hcon
      · rename_i hB
        obtain ⟨_, _, _, hsynA, _, _⟩ := paint_and_emit_text_ok hA
        exact @paint_and_emit_text_some_ne_panicked _ _ _ _ _ _ _ _ _ syn
          (by simpa [hsynA] using hsyn) hB
    · cases hcon
    · rename_i hA
      exact paint_and_emit_text_some_ne_panicked hsyn hA

theorem deltaStep_ne_panicked {σ θ η : Type} {config : Config θ}
    {ex : Externals σ θ η} {state : State} {st : RunState σ} {l : Str}
    (hinv : SynInv st.painter) :
    deltaStep config ex state st l ≠ Res.panicked := by
  intro hcon
  simp only [deltaStep] at hcon
  split at hcon
  · -- diff branch
    split at hcon
    · exact writelnRaw_ne_panicked hcon
    · cases hcon
    · rename_i hA
      exact flush_ne_panicked hinv hA
  · split at hcon
    · -- commit branch
      split at hcon
      · exact writelnRaw_ne_panicked hcon
      · cases hcon
      · rename_i hA
        exact flush_ne_panicked hinv hA
    · split at hcon
      · -- @@ branch
        exact writelnRaw_ne_panicked hcon
      · split at hcon
        · -- hunk branch
          rename_i hguard
          obtain ⟨syn, hsyn⟩ := Option.isSome_iff_exists.mp hguard.2
          split at hcon
          · -- '-'
            split at hcon
            · split at hcon
              · cases hcon
              · cases hcon
              · rename_i hA
                exact flush_ne_panicked hinv hA
            · cases hcon
          · -- '+'
            cases hcon
          · -- context
            split at hcon
            · rename_i stA hA
              split at hcon
              · cases hcon
              · cases hcon
              · rename_i hB
                obtain ⟨_, _, hsynA, _, _, _⟩ := flush_ok hA
                exact @paint_and_emit_text_some_ne_panicked _ _ _ _ _ _ _ _ _ syn
                  (hsynA.trans hsyn) hB
            · cases hcon
            · rename_i hA
              exact flush_ne_panicked hinv hA
        · -- fallthrough
          exact writelnRaw_ne_panicked hcon

/-- Structural inversion of one successful classifier step: each buffer
is kept, cleared, extended at the end, or restarted; a step that lands
in a non-hunk state either has just flushed (both buffers empty) or was
a pure fallthrough emission; and the safety invariant is preserved. -/
theorem deltaStep_ok_buffers {σ θ η : Type} {config : Config θ}
    {ex : Externals σ θ η} {state state' : State} {st st' : RunState σ} {l : Str}
    (h : deltaStep config ex state st l = Res.ok (state', st')) :
    BufStep st.painter.minus_lines st'.painter.minus_lines (ex.strip_ansi_codes l) ∧
    BufStep st.painter.plus_lines st'.painter.plus_lines (ex.strip_ansi_codes l) ∧
    (¬ inHunk state' →
      (st'.painter.minus_lines = [] ∧ st'.painter.plus_lines = []) ∨
        (state' = state ∧ st'.painter = st.painter)) ∧
    (SynInv st.painter → SynInv st'.painter) := by
  simp only [deltaStep] at h
  split at h
  · -- "diff --"
    split at h
    · rename_i stA hA
      obtain ⟨hmA, hpA, hsA, _, _, _⟩ := flush_ok hA
      obtain ⟨hst, hpn, hw, _⟩ := writelnRaw_ok h
      have hm' : st'.painter.minus_lines = [] := by rw [hpn]; simpa using hmA
      have hp' : st'.painter.plus_lines = [] := by rw [hpn]; simpa using hpA
      exact ⟨Or.inr (Or.inl hm'), Or.inr (Or.inl hp'),
        fun _ => Or.inl ⟨hm', hp'⟩,
        fun _ hbuf => absurd hbuf (by simp [hm', hp'])⟩
    · cases h
    · cases h
  · split at h
    · -- "commit"
      split at h
      · rename_i stA hA
        obtain ⟨hmA, hpA, hsA, _, _, _⟩ := flush_ok hA
        obtain ⟨hst, hpn, hw, _⟩ := writelnRaw_ok h
        have hm' : st'.painter.minus_lines = [] := by rw [hpn]; exact hmA
        have hp' : st'.painter.plus_lines = [] := by rw [hpn]; exact hpA
        exact ⟨Or.inr (Or.inl hm'), Or.inr (Or.inl hp'),
          fun _ => Or.inl ⟨hm', hp'⟩,
          fun _ hbuf => absurd hbuf (by simp [hm', hp'])⟩
      · cases h
      · cases h
    · split at h
      · -- "@@"
        obtain ⟨hst, hpn, hw, _⟩ := writelnRaw_ok h
        refine ⟨Or.inl (by rw [hpn]), Or.inl (by rw [hpn]), ?_, ?_⟩
        · intro hnin
          exact absurd (by rw [hst]; exact Or.inl rfl) hnin
        · intro hsi
          rw [hpn]
          exact hsi
      · split at h
        · -- hunk-content branch
          rename_i hguard
          split at h
          · -- '-'
            split at h
            · -- state = HunkPlus: flush first
              split at h
              · rename_i stA hA
                obtain ⟨hmA, hpA, hsA, _, _, _⟩ := flush_ok hA
                cases h
                refine ⟨Or.inr (Or.inr (Or.inr (by simp [hmA]))),
                  Or.inr (Or.inl (by simp [hpA])), ?_, ?_⟩
                · intro hnin
                  exact absurd (Or.inr (Or.inr (Or.inl rfl))) hnin
                · intro _ _
                  show (Painter.mk _ _ _ _).synRef.isSome = true
                  simp only []
                  rw [hsA]
                  exact hguard.2
              · cases h
              · cases h
            · -- other hunk states: plain push
              cases h
              refine ⟨Or.inr (Or.inr (Or.inl rfl)), Or.inl rfl, ?_, ?_⟩
              · intro hnin
                exact absurd (Or.inr (Or.inr (Or.inl rfl))) hnin
              · intro _ _
                exact hguard.2
          · -- '+': plain push
            cases h
            refine ⟨Or.inl rfl, Or.inr (Or.inr (Or.inl rfl)), ?_, ?_⟩
            · intro hnin
              exact absurd (Or.inr (Or.inr (Or.inr rfl))) hnin
            · intro _ _
              exact hguard.2
          · -- context line
            split at h
            · rename_i stA hA
              split at h
              · rename_i stB hB
                cases h
                obtain ⟨hmA, hpA, hsA, _, _, _⟩ := flush_ok hA
                obtain ⟨_, hmB, hpB, hsB, _, _⟩ := paint_and_emit_text_ok hB
                have hm' : st'.painter.minus_lines = [] := by rw [hmB]; exact hmA
                have hp' : st'.painter.plus_lines = [] := by rw [hpB]; exact hpA
                exact ⟨Or.inr (Or.inl hm'), Or.inr (Or.inl hp'),
                  fun _ => Or.inl ⟨hm', hp'⟩,
                  fun _ hbuf => absurd hbuf (by simp [hm', hp'])⟩
              · cases h
              · cases h
            · cases h
            · cases h
        · -- fallthrough
          obtain ⟨hst, hpn, hw, _⟩ := writelnRaw_ok h
          refine ⟨Or.inl (by rw [hpn]), Or.inl (by rw [hpn]), ?_, ?_⟩
          · intro _
            exact Or.inr ⟨hst, hpn⟩
          · intro hsi
            rw [hpn]
            exact hsi

theorem outputLines_append_one (ws : List Str) (w : Str) :
    outputLines (ws ++ [w]) = outputLines ws ++ splitNl w := by
  simp [outputLines]

theorem nbCount_append_one (ws : List Str) (w : Str) :
    nbCount (ws ++ [w]) = nbCount ws + nbChunk w := by
  simp [nbCount, outputLines_append_one, nbChunk, List.filter_append]

theorem emittedClean_append_one (ws : List Str) (w : Str) :
    emittedClean (ws ++ [w]) = emittedClean ws ++ cleanChunk w := by
  simp [emittedClean, outputLines_append_one, cleanChunk, List.filter_append]

theorem forall₂_strip_map {xs ys : List Str}
    (h : List.Forall₂ (fun s t => stripAnsi s = t) xs ys) :
    xs.map stripAnsi = ys := by
  induction h with
  | nil => rfl
  | cons hrel _ ih => simp [ih, hrel]

/-- Splitting a painted chunk at newlines and unescaping each segment
recovers the split of the painted text. -/
theorem paint_text_splitNl_map {σ θ η : Type} {ex : Externals σ θ η}
    {text : Str} {syn : σ} {bg : Option Color} {config : Config θ} {ap : Bool}
    (hgood : GoodHl ex) (hesc : '\x1b' ∉ text) :
    (splitNl (paint_text ex text syn bg config ap [])).map stripAnsi =
      splitNl text :=
  forall₂_strip_map (paint_text_interleaved hgood hesc).splitNl_forall₂

theorem paint_text_nil {σ θ η : Type} {ex : Externals σ θ η} {syn : σ}
    {bg : Option Color} {config : Config θ} {ap : Bool} {buf : Str} :
    paint_text ex [] syn bg config ap buf = buf := rfl

theorem mem_joinNl {ls : List Str} {c : Char} (h : c ∈ joinNl ls) :
    c = '\n' ∨ ∃ x ∈ ls, c ∈ x := by
  induction ls with
  | nil => cases h
  | cons l rest ih =>
    cases rest with
    | nil =>
      exact Or.inr ⟨l, List.mem_cons_self l [], h⟩
    | cons l2 rest2 =>
      have hj : joinNl (l :: l2 :: rest2) = l ++ '\n' :: joinNl (l2 :: rest2) := rfl
      rw [hj] at h
      rcases List.mem_append.mp h with h1 | h1
      · exact Or.inr ⟨l, List.mem_cons_self l _, h1⟩
      · rcases List.mem_cons.mp h1 with h2 | h2
        · exact Or.inl h2
        · rcases ih h2 with h3 | ⟨x, hx, hcx⟩
          · exact Or.inl h3
          · exact Or.inr ⟨x, List.mem_cons_of_mem l hx, hcx⟩

theorem joinNl_no_esc {ls : List Str} (h : ∀ x ∈ ls, CleanBuf x) :
    '\x1b' ∉ joinNl ls := by
  intro hmem
  rcases mem_joinNl hmem with h1 | ⟨x, hx, hcx⟩
  · exact absurd h1 (by decide)
  · exact (h x hx).2.2 hcx

/-- The unescaped non-blank lines of a flush block are exactly the
buffered lines (also when the buffer is empty: the block is then a
single blank line contributing nothing). -/
theorem cleanChunk_block {σ θ η : Type} {ex : Externals σ θ η} {ls : List Str}
    {syn : σ} {bg : Option Color} {config : Config θ} {ap : Bool}
    (hgood : GoodHl ex) (hcl : ∀ x ∈ ls, CleanBuf x) :
    cleanChunk (paint_text ex (joinNl ls) syn bg config ap []) = ls := by
  cases hls : ls with
  | nil =>
    show cleanChunk (paint_text ex (joinNl []) syn bg config ap []) = []
    rw [show joinNl [] = [] from rfl, paint_text_nil]
    rfl
  | cons l0 rest =>
    rw [← hls]
    have hlsne : ls ≠ [] := by rw [hls]; simp
    have hesc : '\x1b' ∉ joinNl ls := joinNl_no_esc hcl
    have hsplit : splitNl (joinNl ls) = ls :=
      splitNl_joinNl hlsne (fun x hx => (hcl x hx).2.1)
    unfold cleanChunk
    rw [paint_text_splitNl_map hgood hesc, hsplit]
    apply List.filter_eq_self.mpr
    intro x hx
    simpa using (hcl x hx).1

/-- The number of non-blank lines a flush block contributes is the
number of buffered lines. -/
theorem nbChunk_block {σ θ η : Type} {ex : Externals σ θ η} {ls : List Str}
    {syn : σ} {bg : Option Color} {config : Config θ} {ap : Bool}
    (hgood : GoodHl ex) (hcl : ∀ x ∈ ls, CleanBuf x) :
    nbChunk (paint_text ex (joinNl ls) syn bg config ap []) = ls.length := by
  cases hls : ls with
  | nil =>
    show nbChunk (paint_text ex (joinNl []) syn bg config ap []) = 0
    rw [show joinNl [] = [] from rfl, paint_text_nil]
    rfl
  | cons l0 rest =>
    rw [← hls]
    have hlsne : ls ≠ [] := by rw [hls]; simp
    have hesc : '\x1b' ∉ joinNl ls := joinNl_no_esc hcl
    have hsplit : splitNl (joinNl ls) = ls :=
      splitNl_joinNl hlsne (fun x hx => (hcl x hx).2.1)
    have hmap := @paint_text_splitNl_map _ _ _ _ _ syn bg config ap hgood hesc
    rw [hsplit] at hmap
    unfold nbChunk
    have hfil : (splitNl (paint_text ex (joinNl ls) syn bg config ap [])).filter
        (fun l => !l.isEmpty) = splitNl (paint_text ex (joinNl ls) syn bg config ap []) := by
      apply List.filter_eq_self.mpr
      intro x hx
      have hxs : stripAnsi x ∈ ls := hmap ▸ List.mem_map_of_mem stripAnsi hx
      have hxne : stripAnsi x ≠ [] := (hcl _ hxs).1
      cases x with
      | nil => exact absurd rfl hxne
      | cons c cs => simp
    rw [hfil]
    have hlen := congrArg List.length hmap
    simpa using hlen

/-- A raw clean line contributes itself. -/
theorem cleanChunk_raw {l : Str} (hne : l ≠ []) (hnl : '\n' ∉ l)
    (hesc : '\x1b' ∉ l) : cleanChunk l = [l] := by
  unfold cleanChunk
  rw [splitNl_no_nl hnl]
  simp [stripAnsi_no_esc hesc, hne]

theorem nbChunk_raw {l : Str} (hne : l ≠ []) (hnl : '\n' ∉ l) : nbChunk l = 1 := by
  unfold nbChunk
  rw [splitNl_no_nl hnl]
  simp [hne]

/-- A painted single clean line contributes itself (context lines). -/
theorem cleanChunk_paint_line {σ θ η : Type} {ex : Externals σ θ η} {l : Str}
    {syn : σ} {bg : Option Color} {config : Config θ} {ap : Bool}
    (hgood : GoodHl ex) (hne : l ≠ []) (hnl : '\n' ∉ l) (hesc : '\x1b' ∉ l) :
    cleanChunk (paint_text ex l syn bg config ap []) = [l] := by
  have hj : joinNl [l] = l := rfl
  have := @cleanChunk_block _ _ _ _ [l] syn bg config ap
    hgood (by intro x hx; simp at hx; subst hx; exact ⟨hne, hnl, hesc⟩)
  rwa [hj] at this

theorem nbChunk_paint_line {σ θ η : Type} {ex : Externals σ θ η} {l : Str}
    {syn : σ} {bg : Option Color} {config : Config θ} {ap : Bool}
    (hgood : GoodHl ex) (hne : l ≠ []) (hnl : '\n' ∉ l) (hesc : '\x1b' ∉ l) :
    nbChunk (paint_text ex l syn bg config ap []) = 1 := by
  have hj : joinNl [l] = l := rfl
  have := @nbChunk_block _ _ _ _ [l] syn bg config ap
    hgood (by intro x hx; simp at hx; subst hx; exact ⟨hne, hnl, hesc⟩)
  rwa [hj] at this

/-- One clean step always succeeds, preserves well-formedness, and
accounts the line exactly once (buffered or written); if additionally
the line is not a hunk header arriving over non-empty buffers, the
unescaped content account grows by exactly that line, in order. -/
theorem deltaStep_clean {σ θ η : Type} {config : Config θ}
    {ex : Externals σ θ η} {state : State} {st : RunState σ} {l : Str}
    (hgood : GoodHl ex) (hwf : RunWf st) (hcl : CleanLine ex l) :
    ∃ state' st', deltaStep config ex state st l = Res.ok (state', st') ∧
      RunWf st' ∧ nbMeasure st' = nbMeasure st + 1 ∧
      ((strStarts (ex.strip_ansi_codes l) "@@".data = true →
          st.painter.minus_lines = [] ∧ st.painter.plus_lines = []) →
        HunkInv state st →
        HunkInv state' st' ∧ emitted st' = emitted st ++ [l]) := by
  obtain ⟨hstrip, hlne, hlnl, hlesc⟩ := hcl
  obtain ⟨hplan, hob, hmcl, hpcl, hsyninv⟩ := hwf
  have hraw_nb : nbChunk l = 1 := nbChunk_raw hlne hlnl
  have hraw_cc : cleanChunk l = [l] := cleanChunk_raw hlne hlnl hlesc
  by_cases hdiff : strStarts (ex.strip_ansi_codes l) "diff --".data = true
  · by_cases hbuf : st.painter.minus_lines = [] ∧ st.painter.plus_lines = []
    · refine ⟨_, _, step_diff_empty hdiff hbuf.1 hbuf.2 hplan, ?_, ?_, ?_⟩
      · exact ⟨hplan, hob, by simp [hbuf.1], by simp [hbuf.2],
          fun hne => absurd hne (by simp [hbuf.1, hbuf.2])⟩
      · simp [nbMeasure, nbCount_append_one, hraw_nb, hbuf.1, hbuf.2]
      · intro _ _
        refine ⟨⟨fun hne => absurd hne (by simp [hbuf.1, hbuf.2]),
          fun hne => absurd hne (by simp [hbuf.2])⟩, ?_⟩
        simp [emitted, emittedClean_append_one, hraw_cc, hbuf.1, hbuf.2]
    · obtain ⟨syn, hsyn⟩ := Option.isSome_iff_exists.mp (hsyninv (by tauto))
      refine ⟨_, _, step_diff_flush hdiff hsyn hbuf hplan, ?_, ?_, ?_⟩
      · exact ⟨rfl, rfl, by simp, by simp, fun hne => absurd hne (by simp)⟩
      · have h1 : st.written ++ [minusBlock config ex syn st, plusBlock config ex syn st, l] =
            ((st.written ++ [minusBlock config ex syn st]) ++ [plusBlock config ex syn st]) ++ [l] := by
          simp
        simp only [nbMeasure, h1, nbCount_append_one]
        have hmb : nbChunk (minusBlock config ex syn st) = st.painter.minus_lines.length := by
          unfold minusBlock
          rw [hob]
          exact nbChunk_block hgood hmcl
        have hpb : nbChunk (plusBlock config ex syn st) = st.painter.plus_lines.length := by
          unfold plusBlock
          exact nbChunk_block hgood hpcl
        simp [hmb, hpb, hraw_nb] <;> omega
      · intro _ _
        refine ⟨⟨fun hne => absurd hne (by simp), fun hne => absurd hne (by simp)⟩, ?_⟩
        have h1 : st.written ++ [minusBlock config ex syn st, plusBlock config ex syn st, l] =
            ((st.written ++ [minusBlock config ex syn st]) ++ [plusBlock config ex syn st]) ++ [l] := by
          simp
        simp only [emitted, h1, emittedClean_append_one]
        have hmb : cleanChunk (minusBlock config ex syn st) = st.painter.minus_lines := by
          unfold minusBlock
          rw [hob]
          exact cleanChunk_block hgood hmcl
        have hpb : cleanChunk (plusBlock config ex syn st) = st.painter.plus_lines := by
          unfold plusBlock
          exact cleanChunk_block hgood hpcl
        simp [hmb, hpb, hraw_cc]
  · have hdiff' : strStarts (ex.strip_ansi_codes l) "diff --".data = false :=
      Bool.eq_false_iff.mpr hdiff
    by_cases hcommit : strStarts (ex.strip_ansi_codes l) "commit".data = true
    · by_cases hbuf : st.painter.minus_lines = [] ∧ st.painter.plus_lines = []
      · refine ⟨_, _, step_commit_empty hdiff' hcommit hbuf.1 hbuf.2 hplan, ?_, ?_, ?_⟩
        · exact ⟨hplan, hob, hmcl, hpcl, hsyninv⟩
        · simp [nbMeasure, nbCount_append_one, hraw_nb] <;> omega
        · intro _ _
          refine ⟨⟨fun hne => absurd hne (by simp [hbuf.1, hbuf.2]),
            fun hne => absurd hne (by simp [hbuf.2])⟩, ?_⟩
          simp [emitted, emittedClean_append_one, hraw_cc, hbuf.1, hbuf.2]
      · obtain ⟨syn, hsyn⟩ := Option.isSome_iff_exists.mp (hsyninv (by tauto))
        refine ⟨_, _, step_commit_flush hdiff' hcommit hsyn hbuf hplan, ?_, ?_, ?_⟩
        · exact ⟨rfl, rfl, by simp, by simp, fun hne => absurd hne (by simp)⟩
        · have h1 : st.written ++ [minusBlock config ex syn st, plusBlock config ex syn st, l] =
              ((st.written ++ [minusBlock config ex syn st]) ++ [plusBlock config ex syn st]) ++ [l] := by
            simp
          simp only [nbMeasure, h1, nbCount_append_one]
          have hmb : nbChunk (minusBlock config ex syn st) = st.painter.minus_lines.length := by
            unfold minusBlock
            rw [hob]
            exact nbChunk_block hgood hmcl
          have hpb : nbChunk (plusBlock config ex syn st) = st.painter.plus_lines.length := by
            unfold plusBlock
            exact nbChunk_block hgood hpcl
          simp [hmb, hpb, hraw_nb] <;> omega
        · intro _ _
          refine ⟨⟨fun hne => absurd hne (by simp), fun hne => absurd hne (by simp)⟩, ?_⟩
          have h1 : st.written ++ [minusBlock config ex syn st, plusBlock config ex syn st, l] =
              ((st.written ++ [minusBlock config ex syn st]) ++ [plusBlock config ex syn st]) ++ [l] := by
            simp
          simp only [emitted, h1, emittedClean_append_one]
          have hmb : cleanChunk (minusBlock config ex syn st) = st.painter.minus_lines := by
            unfold minusBlock
            rw [hob]
            exact cleanChunk_block hgood hmcl
          have hpb : cleanChunk (plusBlock config ex syn st) = st.painter.plus_lines := by
            unfold plusBlock
            exact cleanChunk_block hgood hpcl
          simp [hmb, hpb, hraw_cc]
    · have hcommit' : strStarts (ex.strip_ansi_codes l) "commit".data = false :=
        Bool.eq_false_iff.mpr hcommit
      by_cases hatat : strStarts (ex.strip_ansi_codes l) "@@".data = true
      · refine ⟨_, _, step_atat hatat hplan, ?_, ?_, ?_⟩
        · exact ⟨hplan, hob, hmcl, hpcl, hsyninv⟩
        · simp [nbMeasure, nbCount_append_one, hraw_nb] <;> omega
        · intro hflushed _
          obtain ⟨hm0, hp0⟩ := hflushed hatat
          refine ⟨⟨fun hne => absurd hne (by simp [hm0, hp0]),
            fun hne => absurd hne (by simp [hp0])⟩, ?_⟩
          simp [emitted, emittedClean_append_one, hraw_cc, hm0, hp0]
      · have hatat' : strStarts (ex.strip_ansi_codes l) "@@".data = false :=
          Bool.eq_false_iff.mpr hatat
        by_cases hguard : inHunk state ∧ st.painter.synRef.isSome = true
        · obtain ⟨c, hh⟩ : ∃ c, (ex.strip_ansi_codes l).head? = some c := by
            rw [hstrip]
            cases l with
            | nil => exact absurd rfl hlne
            | cons c cs => exact ⟨c, rfl⟩
          by_cases hcm : c = '-'
          · subst hcm
            by_cases hsp : state = State.HunkPlus
            · subst hsp
              by_cases hbuf : st.painter.minus_lines = [] ∧ st.painter.plus_lines = []
              · refine ⟨_, _, step_minus_flush_empty hh hbuf.1 hbuf.2 hguard.2, ?_, ?_, ?_⟩
                · refine ⟨hplan, hob, ?_, hpcl, fun _ => hguard.2⟩
                  intro x hx
                  rcases List.mem_append.mp hx with h1 | h1
                  · exact hmcl x h1
                  · simp only [List.mem_singleton] at h1
                    subst h1
                    rw [hstrip]; exact ⟨hlne, hlnl, hlesc⟩
                · simp [nbMeasure] <;> omega
                · intro _ _
                  refine ⟨⟨fun _ => Or.inr (Or.inr (Or.inl rfl)),
                    fun hne => absurd hne (by simp [hbuf.2])⟩, ?_⟩
                  simp [emitted, hbuf.1, hbuf.2, hstrip]
              · obtain ⟨syn, hsyn⟩ := Option.isSome_iff_exists.mp (hsyninv (by tauto))
                refine ⟨_, _, step_minus_flush hh hbuf hsyn hplan, ?_, ?_, ?_⟩
                · refine ⟨rfl, rfl, ?_, by simp, fun _ => rfl⟩
                  intro x hx
                  simp only [List.mem_singleton] at hx
                  subst hx
                  rw [hstrip]; exact ⟨hlne, hlnl, hlesc⟩
                · have h1 : st.written ++ [minusBlock config ex syn st, plusBlock config ex syn st] =
                      (st.written ++ [minusBlock config ex syn st]) ++ [plusBlock config ex syn st] := by
                    simp
                  simp only [nbMeasure, h1, nbCount_append_one]
                  have hmb : nbChunk (minusBlock config ex syn st) = st.painter.minus_lines.length := by
                    unfold minusBlock
                    rw [hob]
                    exact nbChunk_block hgood hmcl
                  have hpb : nbChunk (plusBlock config ex syn st) = st.painter.plus_lines.length := by
                    unfold plusBlock
                    exact nbChunk_block hgood hpcl
                  simp [hmb, hpb] <;> omega
                · intro _ _
                  refine ⟨⟨fun _ => Or.inr (Or.inr (Or.inl rfl)),
                    fun hne => absurd hne (by simp)⟩, ?_⟩
                  have h1 : st.written ++ [minusBlock config ex syn st, plusBlock config ex syn st] =
                      (st.written ++ [minusBlock config ex syn st]) ++ [plusBlock config ex syn st] := by
                    simp
                  simp only [emitted, h1, emittedClean_append_one]
                  have hmb : cleanChunk (minusBlock config ex syn st) = st.painter.minus_lines := by
                    unfold minusBlock
                    rw [hob]
                    exact cleanChunk_block hgood hmcl
                  have hpb : cleanChunk (plusBlock config ex syn st) = st.painter.plus_lines := by
                    unfold plusBlock
                    exact cleanChunk_block hgood hpcl
                  simp [hmb, hpb, hstrip]
            · refine ⟨_, _, step_minus_no_flush hh hguard.1 hsp hguard.2, ?_, ?_, ?_⟩
              · refine ⟨hplan, hob, ?_, hpcl, fun _ => hguard.2⟩
                intro x hx
                rcases List.mem_append.mp hx with h1 | h1
                · exact hmcl x h1
                · simp only [List.mem_singleton] at h1
                  subst h1
                  rw [hstrip]; exact ⟨hlne, hlnl, hlesc⟩
              · simp [nbMeasure] <;> omega
              · intro _ hhunkinv
                have hp0 : st.painter.plus_lines = [] := by
                  by_contra hne
                  exact hsp (hhunkinv.2 hne)
                refine ⟨⟨fun _ => Or.inr (Or.inr (Or.inl rfl)),
                  fun hne => absurd hne (by simp [hp0])⟩, ?_⟩
                simp [emitted, hp0, hstrip]
          · by_cases hcp : c = '+'
            · subst hcp
              refine ⟨_, _, step_plus hh hguard.1 hguard.2, ?_, ?_, ?_⟩
              · refine ⟨hplan, hob, hmcl, ?_, fun _ => hguard.2⟩
                intro x hx
                rcases List.mem_append.mp hx with h1 | h1
                · exact hpcl x h1
                · simp only [List.mem_singleton] at h1
                  subst h1
                  rw [hstrip]; exact ⟨hlne, hlnl, hlesc⟩
              · simp [nbMeasure] <;> omega
              · intro _ _
                refine ⟨⟨fun _ => Or.inr (Or.inr (Or.inr rfl)), fun _ => rfl⟩, ?_⟩
                simp [emitted, hstrip]
            · have hhm : (ex.strip_ansi_codes l).head? ≠ some '-' := by
                rw [hh]; simp [hcm]
              have hhp : (ex.strip_ansi_codes l).head? ≠ some '+' := by
                rw [hh]; simp [hcp]
              obtain ⟨syn, hsyn⟩ := Option.isSome_iff_exists.mp hguard.2
              by_cases hbuf : st.painter.minus_lines = [] ∧ st.painter.plus_lines = []
              · refine ⟨_, _, step_context_empty hatat' hhm hhp hguard.1 hsyn hbuf.1 hbuf.2
                  hdiff' hcommit' hplan, ?_, ?_, ?_⟩
                · exact ⟨rfl, rfl, by simp [hbuf.1], by simp [hbuf.2],
                    fun hne => absurd hne (by simp [hbuf.1, hbuf.2])⟩
                · have hpaint : nbChunk (paint_text ex (ex.strip_ansi_codes l) syn none config true
                      st.painter.output_buffer) = 1 := by
                    rw [hob, hstrip]
                    exact nbChunk_paint_line hgood hlne hlnl hlesc
                  simp [nbMeasure, nbCount_append_one, hpaint, hbuf.1, hbuf.2]
                · intro _ _
                  refine ⟨⟨fun hne => absurd hne (by simp [hbuf.1, hbuf.2]),
                    fun hne => absurd hne (by simp [hbuf.2])⟩, ?_⟩
                  have hpaint : cleanChunk (paint_text ex (ex.strip_ansi_codes l) syn none config true
                      st.painter.output_buffer) = [l] := by
                    rw [hob, hstrip]
                    exact cleanChunk_paint_line hgood hlne hlnl hlesc
                  simp [emitted, emittedClean_append_one, hpaint, hbuf.1, hbuf.2]
              · refine ⟨_, _, step_context_flush hatat' hhm hhp hguard.1 hsyn hbuf
                  hdiff' hcommit' hplan, ?_, ?_, ?_⟩
                · exact ⟨rfl, rfl, by simp, by simp, fun hne => absurd hne (by simp)⟩
                · have h1 : st.written ++ [minusBlock config ex syn st, plusBlock config ex syn st,
                      paint_text ex (ex.strip_ansi_codes l) syn none config true []] =
                      ((st.written ++ [minusBlock config ex syn st]) ++ [plusBlock config ex syn st]) ++
                        [paint_text ex (ex.strip_ansi_codes l) syn none config true []] := by
                    simp
                  simp only [nbMeasure, h1, nbCount_append_one]
                  have hmb : nbChunk (minusBlock config ex syn st) = st.painter.minus_lines.length := by
                    unfold minusBlock
                    rw [hob]
                    exact nbChunk_block hgood hmcl
                  have hpb : nbChunk (plusBlock config ex syn st) = st.painter.plus_lines.length := by
                    unfold plusBlock
                    exact nbChunk_block hgood hpcl
                  have hpaint : nbChunk (paint_text ex (ex.strip_ansi_codes l) syn none config true []) = 1 := by
                    rw [hstrip]
                    exact nbChunk_paint_line hgood hlne hlnl hlesc
                  simp [hmb, hpb, hpaint] <;> omega
                · intro _ _
                  refine ⟨⟨fun hne => absurd hne (by simp), fun hne => absurd hne (by simp)⟩, ?_⟩
                  have h1 : st.written ++ [minusBlock config ex syn st, plusBlock config ex syn st,
                      paint_text ex (ex.strip_ansi_codes l) syn none config true []] =
                      ((st.written ++ [minusBlock config ex syn st]) ++ [plusBlock config ex syn st]) ++
                        [paint_text ex (ex.strip_ansi_codes l) syn none config true []] := by
                    simp
                  simp only [emitted, h1, emittedClean_append_one]
                  have hmb : cleanChunk (minusBlock config ex syn st) = st.painter.minus_lines := by
                    unfold minusBlock
                    rw [hob]
                    exact cleanChunk_block hgood hmcl
                  have hpb : cleanChunk (plusBlock config ex syn st) = st.painter.plus_lines := by
                    unfold plusBlock
                    exact cleanChunk_block hgood hpcl
                  have hpaint : cleanChunk (paint_text ex (ex.strip_ansi_codes l) syn none config true []) = [l] := by
                    rw [hstrip]
                    exact cleanChunk_paint_line hgood hlne hlnl hlesc
                  simp [hmb, hpb, hpaint]
        · refine ⟨_, _, step_fallthrough hdiff' hcommit' hatat' hguard hplan, ?_, ?_, ?_⟩
          · exact ⟨hplan, hob, hmcl, hpcl, hsyninv⟩
          · simp [nbMeasure, nbCount_append_one, hraw_nb] <;> omega
          · intro _ hhunkinv
            have hbuf : st.painter.minus_lines = [] ∧ st.painter.plus_lines = [] := by
              by_contra hne
              have hnonempty : st.painter.minus_lines ≠ [] ∨ st.painter.plus_lines ≠ [] := by
                tauto
              exact hguard ⟨hhunkinv.1 hnonempty, hsyninv hnonempty⟩
            refine ⟨⟨fun hne => absurd hne (by simp [hbuf.1, hbuf.2]),
              fun hne => absurd hne (by simp [hbuf.2])⟩, ?_⟩
            simp [emitted, emittedClean_append_one, hraw_cc, hbuf.1, hbuf.2]

/-- The clean-run induction over the whole loop. -/
theorem deltaLoop_clean {σ θ η : Type} {config : Config θ} {ex : Externals σ θ η}
    (hgood : GoodHl ex) :
    ∀ (lines : List Str) (state : State) (st : RunState σ),
      RunWf st → (∀ l ∈ lines, CleanLine ex l) →
      ∃ state' st', deltaLoop config ex lines state st = Res.ok (state', st') ∧
        RunWf st' ∧ nbMeasure st' = nbMeasure st + lines.length ∧
        (headersFlushed config ex lines state st = true → HunkInv state st →
          HunkInv state' st' ∧ emitted st' = emitted st ++ lines)
  | [], state, st, hwf, _ =>
    ⟨state, st, rfl, hwf, by simp, fun _ hinv => ⟨hinv, by simp⟩⟩
  | l :: rest, state, st, hwf, hcl => by
    obtain ⟨state1, st1, hstep, hwf1, hmeas1, hemit1⟩ :=
      @deltaStep_clean _ _ _ config _ _ _ _ hgood hwf (hcl l (List.mem_cons_self l rest))
    obtain ⟨state', st', hloop, hwf', hmeas', hemit'⟩ :=
      deltaLoop_clean hgood rest state1 st1 hwf1
        (fun x hx => hcl x (List.mem_cons_of_mem l hx))
    refine ⟨state', st', ?_, hwf', ?_, ?_⟩
    · rw [deltaLoop, hstep]
      exact hloop
    · rw [hmeas', hmeas1]
      simp
      omega
    · intro hhf hinv
      rw [headersFlushed, hstep] at hhf
      rw [Bool.and_eq_true] at hhf
      obtain ⟨hc1, hc2⟩ := hhf
      have hflushed : strStarts (ex.strip_ansi_codes l) "@@".data = true →
          st.painter.minus_lines = [] ∧ st.painter.plus_lines = [] := by
        intro hat
        rw [if_pos hat] at hc1
        exact of_decide_eq_true hc1
      obtain ⟨hinv1, hem1⟩ := hemit1 hflushed hinv
      obtain ⟨hinv', hem'⟩ := hemit' hc2 hinv1
      refine ⟨hinv', ?_⟩
      rw [hem', hem1]
      simp

/-- A full clean run: every write succeeds, the run returns `ok`, the
number of non-blank output lines equals the number of input lines, and —
when every hunk header arrives flushed — the unescaped non-blank output
lines are exactly the input lines, in order. -/
theorem delta_clean {σ θ η : Type} {config : Config θ} {ex : Externals σ θ η}
    {lines : List Str} (hgood : GoodHl ex) (hcl : ∀ l ∈ lines, CleanLine ex l) :
    ∃ state' st', delta config ex [] lines = Res.ok (state', st') ∧
      nbCount st'.written = lines.length ∧
      (headersFlushed config ex lines State.Unknown (initSt []) = true →
        emittedClean st'.written = lines) := by
  have hwf0 : RunWf (initSt (σ := σ) []) :=
    ⟨rfl, rfl, by simp [initSt], by simp [initSt], fun hne => absurd hne (by simp [initSt])⟩
  obtain ⟨state1, st1, hloop, hwf1, hmeas1, hemit1⟩ :=
    @deltaLoop_clean _ _ _ config _ hgood lines State.Unknown (initSt []) hwf0 hcl
  obtain ⟨hplan1, hob1, hmcl1, hpcl1, hsyninv1⟩ := hwf1
  have hmeas0 : nbMeasure (initSt (σ := σ) []) = 0 := rfl
  rw [hmeas0, Nat.zero_add] at hmeas1
  have hinv0 : HunkInv State.Unknown (initSt (σ := σ) []) :=
    ⟨fun hne => absurd hne (by simp [initSt]), fun hne => absurd hne (by simp [initSt])⟩
  have hemit0 : emitted (initSt (σ := σ) []) = [] := rfl
  by_cases hbuf : st1.painter.minus_lines = [] ∧ st1.painter.plus_lines = []
  · refine ⟨state1, st1, ?_, ?_, ?_⟩
    · simp only [delta, hloop, flush_empty hbuf.1 hbuf.2]
    · rw [← hmeas1]
      simp [nbMeasure, hbuf.1, hbuf.2]
    · intro hhf
      obtain ⟨_, hem⟩ := hemit1 hhf hinv0
      rw [hemit0] at hem
      simpa [emitted, hbuf.1, hbuf.2] using hem
  · obtain ⟨syn, hsyn⟩ := Option.isSome_iff_exists.mp (hsyninv1 (by tauto))
    refine ⟨state1,
      { painter := { minus_lines := [], plus_lines := [], synRef := some syn,
                     output_buffer := [] },
        written := st1.written ++ [minusBlock config ex syn st1, plusBlock config ex syn st1],
        plan := [] }, ?_, ?_, ?_⟩
    · simp only [delta, hloop, flush_spec hsyn hplan1 hbuf]
    · show nbCount (st1.written ++ [minusBlock config ex syn st1, plusBlock config ex syn st1]) =
        lines.length
      have h1 : st1.written ++ [minusBlock config ex syn st1, plusBlock config ex syn st1] =
          (st1.written ++ [minusBlock config ex syn st1]) ++ [plusBlock config ex syn st1] := by
        simp
      rw [h1, nbCount_append_one, nbCount_append_one]
      have hmb : nbChunk (minusBlock config ex syn st1) = st1.painter.minus_lines.length := by
        unfold minusBlock
        rw [hob1]
        exact nbChunk_block hgood hmcl1
      have hpb : nbChunk (plusBlock config ex syn st1) = st1.painter.plus_lines.length := by
        unfold plusBlock
        exact nbChunk_block hgood hpcl1
      rw [hmb, hpb, ← hmeas1]
      simp [nbMeasure] <;> omega
    · intro hhf
      obtain ⟨_, hem⟩ := hemit1 hhf hinv0
      rw [hemit0] at hem
      show emittedClean (st1.written ++ [minusBlock config ex syn st1, plusBlock config ex syn st1]) =
        lines
      have h1 : st1.written ++ [minusBlock config ex syn st1, plusBlock config ex syn st1] =
          (st1.written ++ [minusBlock config ex syn st1]) ++ [plusBlock config ex syn st1] := by
        simp
      rw [h1, emittedClean_append_one, emittedClean_append_one]
      have hmb : cleanChunk (minusBlock config ex syn st1) = st1.painter.minus_lines := by
        unfold minusBlock
        rw [hob1]
        exact cleanChunk_block hgood hmcl1
      have hpb : cleanChunk (plusBlock config ex syn st1) = st1.painter.plus_lines := by
        unfold plusBlock
        exact cleanChunk_block hgood hpcl1
      rw [hmb, hpb]
      simpa [emitted, List.append_assoc] using hem

theorem deltaStep_ok_loopInv {σ θ η : Type} {config : Config θ}
    {ex : Externals σ θ η} {state state' : State} {st st' : RunState σ} {l : Str}
    (h : deltaStep config ex state st l = Res.ok (state', st'))
    (hinv : LoopInv state st) : LoopInv state' st' := by
  obtain ⟨_, _, hstate, hsyn⟩ := deltaStep_ok_buffers h
  refine ⟨?_, hsyn hinv.2⟩
  intro hnin
  rcases hstate hnin with h1 | ⟨h1, h2⟩
  · exact h1
  · rw [h2]
    exact hinv.1 (h1 ▸ hnin)

theorem deltaLoop_ok_loopInv {σ θ η : Type} {config : Config θ}
    {ex : Externals σ θ η} :
    ∀ (lines : List Str) (state : State) (st : RunState σ) (state' : State)
      (st' : RunState σ),
      deltaLoop config ex lines state st = Res.ok (state', st') →
      LoopInv state st → LoopInv state' st'
  | [], state, st, state', st', h, hinv => by
    cases h
    exact hinv
  | l :: rest, state, st, state', st', h, hinv => by
    rw [deltaLoop] at h
    cases hstep : deltaStep config ex state st l with
    | ok p =>
      obtain ⟨s1, st1⟩ := p
      rw [hstep] at h
      exact deltaLoop_ok_loopInv rest s1 st1 state' st' h
        (deltaStep_ok_loopInv hstep hinv)
    | wErr p => rw [hstep] at h; cases h
    | panicked => rw [hstep] at h; cases h

theorem deltaLoop_ne_panicked {σ θ η : Type} {config : Config θ}
    {ex : Externals σ θ η} :
    ∀ (lines : List Str) (state : State) (st : RunState σ),
      LoopInv state st →
      deltaLoop config ex lines state st ≠ Res.panicked
  | [], state, st, _, h => by cases h
  | l :: rest, state, st, hinv, h => by
    rw [deltaLoop] at h
    cases hstep : deltaStep config ex state st l with
    | ok p =>
      obtain ⟨s1, st1⟩ := p
      rw [hstep] at h
      exact deltaLoop_ne_panicked rest s1 st1
        (deltaStep_ok_loopInv hstep hinv) h
    | wErr p => rw [hstep] at h; cases h
    | panicked =>
      exact deltaStep_ne_panicked hinv.2 hstep

theorem loopInv_init {σ : Type} (plan : List Bool) :
    LoopInv State.Unknown (initSt (σ := σ) plan) :=
  ⟨fun _ => ⟨rfl, rfl⟩, fun hne => absurd hne (by simp [initSt])⟩

/-! ## Runs of removed and added lines -/

theorem deltaLoop_minus_run {σ θ η : Type} {config : Config θ}
    {ex : Externals σ θ η} :
    ∀ (ms : List Str) (st : RunState σ),
      st.painter.synRef.isSome = true →
      (∀ l ∈ ms, (ex.strip_ansi_codes l).head? = some '-') →
      deltaLoop config ex ms State.HunkMinus st =
        Res.ok (State.HunkMinus,
          { st with painter := { st.painter with
              minus_lines := st.painter.minus_lines ++ ms.map ex.strip_ansi_codes } })
  | [], st, _, _ => by
    show Res.ok (State.HunkMinus, st) = _
    simp
  | m :: ms, st, hsyn, hheads => by
    simp only [deltaLoop, step_minus_no_flush (hheads m (List.mem_cons_self m ms))
      (Or.inr (Or.inr (Or.inl rfl))) (by decide) hsyn]
    rw [deltaLoop_minus_run ms _ (by simpa using hsyn)
      (fun x hx => hheads x (List.mem_cons_of_mem m hx))]
    simp

theorem deltaLoop_plus_run_from_plus {σ θ η : Type} {config : Config θ}
    {ex : Externals σ θ η} :
    ∀ (ps : List Str) (st : RunState σ),
      st.painter.synRef.isSome = true →
      (∀ l ∈ ps, (ex.strip_ansi_codes l).head? = some '+') →
      deltaLoop config ex ps State.HunkPlus st =
        Res.ok (State.HunkPlus,
          { st with painter := { st.painter with
              plus_lines := st.painter.plus_lines ++ ps.map ex.strip_ansi_codes } })
  | [], st, _, _ => by
    show Res.ok (State.HunkPlus, st) = _
    simp
  | p :: ps, st, hsyn, hheads => by
    simp only [deltaLoop, step_plus (hheads p (List.mem_cons_self p ps))
      (Or.inr (Or.inr (Or.inr rfl))) hsyn]
    rw [deltaLoop_plus_run_from_plus ps _ (by simpa using hsyn)
      (fun x hx => hheads x (List.mem_cons_of_mem p hx))]
    simp

/-- A `'+'` run arriving in any hunk state (in particular right after a
`'-'` run, state `HunkMinus`) is buffered whole, with no flush and no
output. -/
theorem deltaLoop_plus_run {σ θ η : Type} {config : Config θ}
    {ex : Externals σ θ η} {state : State} (ps : List Str) (st : RunState σ)
    (hst : inHunk state) (hne : ps ≠ [])
    (hsyn : st.painter.synRef.isSome = true)
    (hheads : ∀ l ∈ ps, (ex.strip_ansi_codes l).head? = some '+') :
    deltaLoop config ex ps state st =
      Res.ok (State.HunkPlus,
        { st with painter := { st.painter with
            plus_lines := st.painter.plus_lines ++ ps.map ex.strip_ansi_codes } }) := by
  cases ps with
  | nil => exact absurd rfl hne
  | cons p ps =>
    simp only [deltaLoop, step_plus (hheads p (List.mem_cons_self p ps)) hst hsyn]
    rw [deltaLoop_plus_run_from_plus ps _ (by simpa using hsyn)
      (fun x hx => hheads x (List.mem_cons_of_mem p hx))]
    simp

theorem goodHl_exUnit : GoodHl exUnit := by
  intro h l
  simp [exUnit]

/-! ## The no-syntax (highlighting disabled) run is the identity -/

theorem newSyn_none {σ θ η : Type} {ex : Externals σ θ η}
    (hfind : ∀ e, ex.find_syn_by_extension e = none) (line : Str) :
    newSyn ex line = none := by
  unfold newSyn
  cases ex.get_file_extension_from_diff_line line with
  | none => rfl
  | some e => exact hfind e

theorem deltaLoop_no_syn {σ θ η : Type} {config : Config θ}
    {ex : Externals σ θ η} (hfind : ∀ e, ex.find_syn_by_extension e = none) :
    ∀ (lines : List Str) (state : State) (st : RunState σ),
      st.painter.synRef = none → st.painter.minus_lines = [] →
      st.painter.plus_lines = [] → st.plan = [] →
      ∃ state' st', deltaLoop config ex lines state st = Res.ok (state', st') ∧
        st'.written = st.written ++ lines ∧ st'.painter.synRef = none ∧
        st'.painter.minus_lines = [] ∧ st'.painter.plus_lines = [] ∧ st'.plan = []
  | [], state, st, hsyn, hm, hp, hplan =>
    ⟨state, st, rfl, by simp, hsyn, hm, hp, hplan⟩
  | l :: rest, state, st, hsyn, hm, hp, hplan => by
    have hcont : ∀ (state1 : State) (st1 : RunState σ),
        deltaStep config ex state st l = Res.ok (state1, st1) →
        st1.written = st.written ++ [l] → st1.painter.synRef = none →
        st1.painter.minus_lines = [] → st1.painter.plus_lines = [] → st1.plan = [] →
        ∃ state' st', deltaLoop config ex (l :: rest) state st = Res.ok (state', st') ∧
          st'.written = st.written ++ (l :: rest) ∧ st'.painter.synRef = none ∧
          st'.painter.minus_lines = [] ∧ st'.painter.plus_lines = [] ∧ st'.plan = [] := by
      intro state1 st1 hstep hw1 hsyn1 hm1 hp1 hplan1
      obtain ⟨state', st', hloop, hw', hsyn', hm', hp', hplan'⟩ :=
        deltaLoop_no_syn hfind rest state1 st1 hsyn1 hm1 hp1 hplan1
      refine ⟨state', st', ?_, ?_, hsyn', hm', hp', hplan'⟩
      · rw [deltaLoop, hstep]
        exact hloop
      · rw [hw', hw1]
        simp
    by_cases hdiff : strStarts (ex.strip_ansi_codes l) "diff --".data = true
    · refine hcont _ _ (step_diff_empty hdiff hm hp hplan) (by simp) ?_ hm hp hplan
      exact newSyn_none hfind _
    · have hdiff' := Bool.eq_false_iff.mpr hdiff
      by_cases hcommit : strStarts (ex.strip_ansi_codes l) "commit".data = true
      · exact hcont _ _ (step_commit_empty hdiff' hcommit hm hp hplan) (by simp)
          hsyn hm hp hplan
      · have hcommit' := Bool.eq_false_iff.mpr hcommit
        by_cases hatat : strStarts (ex.strip_ansi_codes l) "@@".data = true
        · exact hcont _ _ (step_atat hatat hplan) (by simp) hsyn hm hp hplan
        · have hatat' := Bool.eq_false_iff.mpr hatat
          refine hcont _ _ (step_fallthrough hdiff' hcommit' hatat' ?_ hplan)
            (by simp) hsyn hm hp hplan
          intro hcon
          rw [hsyn] at hcon
          exact absurd hcon.2 (by simp)

/-- With no resolvable syntax, the whole run emits every raw line
verbatim, one write per line. -/
theorem delta_no_syn {σ θ η : Type} {config : Config θ} {ex : Externals σ θ η}
    (hfind : ∀ e, ex.find_syn_by_extension e = none) (lines : List Str) :
    ∃ state st, delta config ex [] lines = Res.ok (state, st) ∧
      st.written = lines := by
  obtain ⟨state', st', hloop, hw', _, hm', hp', _⟩ :=
    @deltaLoop_no_syn _ _ _ config _ hfind lines State.Unknown (initSt [])
      rfl rfl rfl rfl
  refine ⟨state', st', ?_, by simpa using hw'⟩
  simp only [delta, hloop, flush_empty hm' hp']

/-! ## Claim theorems -/

/-- **C1.** Every call to the flush operation
(`Painter.paint_and_emit_buffered_lines`) on a state whose writes
succeed: if both the removed-lines and added-lines buffers are empty it
is a no-op (no output, no state change); otherwise it first paints the
newline-joined removed buffer with the configuration's removed
background color, with syntax highlighting applied exactly when
`highlight_removed` is set, and clears that buffer, and then paints the
newline-joined added buffer with the added background color and syntax
highlighting always applied, and clears it — in that order (the removed
block is written first). -/
theorem c1_flush_spec {σ θ η : Type} (config : Config θ) (ex : Externals σ θ η)
    (st : RunState σ) :
    (st.painter.minus_lines = [] → st.painter.plus_lines = [] →
      Painter.paint_and_emit_buffered_lines config ex st = Res.ok st) ∧
    (∀ syn, st.painter.synRef = some syn → st.plan = [] →
      ¬(st.painter.minus_lines = [] ∧ st.painter.plus_lines = []) →
      Painter.paint_and_emit_buffered_lines config ex st =
        Res.ok { painter := { minus_lines := [], plus_lines := [],
                              synRef := some syn, output_buffer := [] },
                 written := st.written ++
                   [paint_text ex (joinNl st.painter.minus_lines) syn
                      (some config.minus_color) config config.highlight_removed
                      st.painter.output_buffer,
                    paint_text ex (joinNl st.painter.plus_lines) syn
                      (some config.plus_color) config true []],
                 plan := [] }) :=
  ⟨fun h1 h2 => flush_empty h1 h2,
   fun _ hsyn hp hne => flush_spec hsyn hp hne⟩

theorem c1_flush_spec_witness :
    (Painter.paint_and_emit_buffered_lines cfgUnit exUnit
        { c1st with painter := { c1st.painter with minus_lines := [], plus_lines := [] } } =
      Res.ok { c1st with painter := { c1st.painter with minus_lines := [], plus_lines := [] } }) ∧
    Painter.paint_and_emit_buffered_lines cfgUnit exUnit c1st =
      Res.ok { painter := { minus_lines := [], plus_lines := [],
                            synRef := some (), output_buffer := [] },
               written := c1st.written ++
                 [paint_text exUnit (joinNl c1st.painter.minus_lines) ()
                    (some cfgUnit.minus_color) cfgUnit cfgUnit.highlight_removed
                    c1st.painter.output_buffer,
                  paint_text exUnit (joinNl c1st.painter.plus_lines) ()
                    (some cfgUnit.plus_color) cfgUnit true []],
               plan := [] } :=
  ⟨(c1_flush_spec cfgUnit exUnit _).1 rfl rfl,
   (c1_flush_spec cfgUnit exUnit c1st).2 () rfl rfl (by decide)⟩

/-- **C4.** For every input line whose stripped form starts with `"@@"`
(and therefore not with `"diff --"` or `"commit"`), in any state and
with any buffer contents: the classifier transitions to `HunkMeta`
without flushing (the painter, including both pending buffers, is
untouched), does not buffer the line, and emits the original unstripped
line verbatim through the fallthrough emission path. -/
theorem c4_hunk_header {σ θ η : Type} (config : Config θ) (ex : Externals σ θ η)
    (state : State) (st : RunState σ) (l : Str)
    (h : strStarts (ex.strip_ansi_codes l) "@@".data = true)
    (hp : st.plan = []) :
    deltaStep config ex state st l =
      Res.ok (State.HunkMeta, { st with written := st.written ++ [l] }) :=
  step_atat h hp

theorem c4_hunk_header_witness :
    deltaStep cfgUnit exUnit State.HunkMinus
      { painter := { minus_lines := ["-a".data], plus_lines := ["+b".data],
                     synRef := some (), output_buffer := [] },
        written := [], plan := [] } ("@@ -1 +1 @@".data) =
    Res.ok (State.HunkMeta,
      { painter := { minus_lines := ["-a".data], plus_lines := ["+b".data],
                     synRef := some (), output_buffer := [] },
        written := [("@@ -1 +1 @@".data)], plan := [] }) :=
  c4_hunk_header cfgUnit exUnit State.HunkMinus _ _ (by decide) rfl

/-- **C3.** A line whose stripped form starts with `'-'` (hence matching
no marker prefix), processed in state `HunkPlus` with an active syntax:
the pending buffers are flushed *before* the line is appended — if they
were non-empty, the two pending blocks are written and the new removed
buffer is exactly the one stripped line; if they were empty the flush is
a no-op and the line is simply appended — and the state becomes
`HunkMinus`. -/
theorem c3_minus_after_plus {σ θ η : Type} (config : Config θ) (ex : Externals σ θ η)
    (st : RunState σ) (syn : σ) (l : Str)
    (hh : (ex.strip_ansi_codes l).head? = some '-')
    (hsyn : st.painter.synRef = some syn)
    (hp : st.plan = []) :
    deltaStep config ex State.HunkPlus st l =
      Res.ok (State.HunkMinus,
        if st.painter.minus_lines = [] ∧ st.painter.plus_lines = [] then
          { st with painter := { st.painter with
              minus_lines := st.painter.minus_lines ++ [ex.strip_ansi_codes l] } }
        else
          { painter := { minus_lines := [ex.strip_ansi_codes l], plus_lines := [],
                         synRef := some syn, output_buffer := [] },
            written := st.written ++ [minusBlock config ex syn st, plusBlock config ex syn st],
            plan := [] }) := by
  by_cases hbuf : st.painter.minus_lines = [] ∧ st.painter.plus_lines = []
  · rw [if_pos hbuf]
    exact step_minus_flush_empty hh hbuf.1 hbuf.2 (by rw [hsyn]; rfl)
  · rw [if_neg hbuf]
    exact step_minus_flush hh hbuf hsyn hp

theorem c3_minus_after_plus_witness :
    deltaStep cfgUnit exUnit State.HunkPlus c1st ("-c".data) =
      Res.ok (State.HunkMinus,
        { painter := { minus_lines := ["-c".data], plus_lines := [],
                       synRef := some (), output_buffer := [] },
          written := c1st.written ++
            [minusBlock cfgUnit exUnit () c1st, plusBlock cfgUnit exUnit () c1st],
          plan := [] }) := by
  have h := c3_minus_after_plus cfgUnit exUnit c1st () ("-c".data) (by decide) rfl rfl
  rwa [if_neg (by decide)] at h

/-- **C10.** The run never panics: on every input sequence, every write
plan and every instantiation of the external collaborators, `delta`
never returns the `panicked` outcome — i.e. `paint_and_emit_text` is
never invoked with an unset syntax reference, so its `syntax.unwrap()`
cannot fire.  (Lines are only buffered under an active syntax, and a
`"diff --"` line flushes before re-resolving the reference.) -/
theorem c10_no_panic {σ θ η : Type} (config : Config θ) (ex : Externals σ θ η)
    (plan : List Bool) (lines : List Str) :
    delta config ex plan lines ≠ Res.panicked := by
  intro hcon
  unfold delta at hcon
  cases hloop : deltaLoop config ex lines State.Unknown (initSt plan) with
  | ok p =>
    obtain ⟨state, st⟩ := p
    simp only [hloop] at hcon
    have hinv := deltaLoop_ok_loopInv lines State.Unknown (initSt plan) state st
      hloop (loopInv_init plan)
    cases hflush : Painter.paint_and_emit_buffered_lines config ex st with
    | ok st2 => simp [hflush] at hcon
    | wErr st2 => simp [hflush] at hcon
    | panicked => exact flush_ne_panicked hinv.2 hflush
  | wErr p => rw [hloop] at hcon; cases hcon
  | panicked =>
    exact deltaLoop_ne_panicked lines State.Unknown (initSt plan)
      (loopInv_init plan) hloop

/-- **C7 (amended).** On every *successful* call of `paint_and_emit_text`
the reusable output buffer is truncated to empty after the write; on the
error path the function returns early with the buffer still holding the
painted output (see the counterexample), and the run is aborted. -/
theorem c7_truncate_on_ok {σ θ η : Type} (config : Config θ) (ex : Externals σ θ η)
    (st st' : RunState σ) (text : Str) (bg : Option Color) (ap : Bool)
    (h : Painter.paint_and_emit_text config ex st text bg ap = Res.ok st') :
    st'.painter.output_buffer = [] :=
  (paint_and_emit_text_ok h).1

/-- **C7 counterexample.** When the write fails, `paint_and_emit_text`
returns the error *without* truncating the output buffer: the painted
chunk is still in it.  So the truncation does not happen on every call
path, contrary to the claim. -/
theorem c7_counterexample :
    Painter.paint_and_emit_text cfgUnit exUnit c7st ("x".data) none true =
      Res.wErr { painter := { minus_lines := [], plus_lines := [], synRef := some (),
                              output_buffer := fgEscape ⟨1, 2, 3, 0xff⟩ ++ "x".data }
                 written := []
                 plan := [] } ∧
    (fgEscape ⟨1, 2, 3, 0xff⟩ ++ "x".data : Str) ≠ [] := by
  constructor
  · decide
  · decide

theorem c7_truncate_on_ok_witness :
    Painter.paint_and_emit_text cfgUnit exUnit c7ok ("x".data) none true =
      Res.ok c7ok' ∧
    c7ok'.painter.output_buffer = [] := by
  constructor
  · decide
  · exact c7_truncate_on_ok cfgUnit exUnit c7ok c7ok' ("x".data) none true (by decide)

/-- **C9.** The configuration resolver: each background color equals the
parsed value of its explicit override string when that string is
supplied and parses; otherwise — including when the override is supplied
but malformed — it falls back, without failing, to the fixed palette
color selected by membership of the resolved theme name in the closed
light-theme list (`LIGHT_THEMES`): pale tints for light themes, deep
near-black tints for dark themes. -/
theorem c9_config_colors {θ : Type} (color_from_str : String → Option Color)
    (themes : String → θ) (theme : Option String) (light : Bool)
    (plus_color_str minus_color_str : Option String)
    (highlight_removed : Bool) (width : Option Nat) :
    (∀ s c, minus_color_str = some s → color_from_str s = some c →
      (get_config color_from_str themes theme light plus_color_str minus_color_str
        highlight_removed width).minus_color = c) ∧
    ((minus_color_str = none ∨ ∃ s, minus_color_str = some s ∧ color_from_str s = none) →
      (get_config color_from_str themes theme light plus_color_str minus_color_str
        highlight_removed width).minus_color =
        if LIGHT_THEMES.contains (resolve_theme_name theme light) then
          LIGHT_THEME_MINUS_COLOR else DARK_THEME_MINUS_COLOR) ∧
    (∀ s c, plus_color_str = some s → color_from_str s = some c →
      (get_config color_from_str themes theme light plus_color_str minus_color_str
        highlight_removed width).plus_color = c) ∧
    ((plus_color_str = none ∨ ∃ s, plus_color_str = some s ∧ color_from_str s = none) →
      (get_config color_from_str themes theme light plus_color_str minus_color_str
        highlight_removed width).plus_color =
        if LIGHT_THEMES.contains (resolve_theme_name theme light) then
          LIGHT_THEME_PLUS_COLOR else DARK_THEME_PLUS_COLOR) := by
  refine ⟨?_, ?_, ?_, ?_⟩
  · intro s c hs hc
    subst hs
    simp [get_config, hc]
  · rintro (hnone | ⟨s, hs, hc⟩)
    · subst hnone
      simp [get_config]
    · subst hs
      simp [get_config, hc]
  · intro s c hs hc
    subst hs
    simp [get_config, hc]
  · rintro (hnone | ⟨s, hs, hc⟩)
    · subst hnone
      simp [get_config]
    · subst hs
      simp [get_config, hc]

theorem c9_config_colors_witness :
    ((get_config parseW (fun _ => ()) (some "Monokai Extended") false
        (some "#123456") (some "bogus") false none).minus_color =
      DARK_THEME_MINUS_COLOR) ∧
    ((get_config parseW (fun _ => ()) (some "Monokai Extended") false
        (some "#123456") (some "bogus") false none).plus_color =
      ⟨0x12, 0x34, 0x56, 0xff⟩) ∧
    ((get_config parseW (fun _ => ()) (some "GitHub") false
        none none false none).minus_color = LIGHT_THEME_MINUS_COLOR) :=
  ⟨by
    have h := (c9_config_colors parseW (fun _ => ()) (some "Monokai Extended") false
      (some "#123456") (some "bogus") false none).2.1
      (Or.inr ⟨"bogus", rfl, by decide⟩)
    simpa using h,
   by
    have h := (c9_config_colors parseW (fun _ => ()) (some "Monokai Extended") false
      (some "#123456") (some "bogus") false none).2.2.1 "#123456"
      ⟨0x12, 0x34, 0x56, 0xff⟩ rfl (by decide)
    simpa using h,
   by
    have h := (c9_config_colors parseW (fun _ => ()) (some "GitHub") false
      none none false none).2.1 (Or.inl rfl)
    simpa using h⟩

theorem deltaLoop_append {σ θ η : Type} {config : Config θ} {ex : Externals σ θ η} :
    ∀ (a : List Str) {b : List Str} {state s1 : State} {st st1 : RunState σ},
      deltaLoop config ex a state st = Res.ok (s1, st1) →
      deltaLoop config ex (a ++ b) state st = deltaLoop config ex b s1 st1
  | [], b, state, s1, st, st1, h => by
    cases h
    rfl
  | l :: rest, b, state, s1, st, st1, h => by
    rw [deltaLoop] at h
    rw [List.cons_append, deltaLoop]
    cases hstep : deltaStep config ex state st l with
    | ok p =>
      obtain ⟨s2, st2⟩ := p
      rw [hstep] at h
      exact deltaLoop_append rest h
    | wErr p => rw [hstep] at h; cases h
    | panicked => rw [hstep] at h; cases h

/-- **C2.** A `'-'` run immediately followed by a `'+'` run, arriving in
a hunk-content state with an active syntax: after the first `'-'` line
(which may flush only the *previous* pending batch, cf. C3), no flush
and no output occurs between or within the two runs — the whole `'-'`
run and the whole `'+'` run accumulate in the buffers in input order —
and the next flush event emits them together as one unit, painting the
removed block and the added block independently with their respective
background colors. -/
theorem c2_batched_runs {σ θ η : Type} (config : Config θ) (ex : Externals σ θ η)
    (state : State) (st : RunState σ) (syn : σ) (m0 : Str) (mrest ps : List Str)
    (hst : inHunk state)
    (hsyn : st.painter.synRef = some syn)
    (hp : st.plan = [])
    (hms : ∀ l ∈ m0 :: mrest, (ex.strip_ansi_codes l).head? = some '-')
    (hps : ∀ l ∈ ps, (ex.strip_ansi_codes l).head? = some '+')
    (hpsne : ps ≠ []) :
    ∃ stA st1,
      deltaStep config ex state st m0 = Res.ok (State.HunkMinus, stA) ∧
      deltaLoop config ex (mrest ++ ps) State.HunkMinus stA =
        Res.ok (State.HunkPlus, st1) ∧
      st1.written = stA.written ∧
      st1.painter.minus_lines = stA.painter.minus_lines ++ mrest.map ex.strip_ansi_codes ∧
      st1.painter.plus_lines = stA.painter.plus_lines ++ ps.map ex.strip_ansi_codes ∧
      Painter.paint_and_emit_buffered_lines config ex st1 =
        Res.ok { painter := { minus_lines := [], plus_lines := [],
                              synRef := some syn, output_buffer := [] },
                 written := st1.written ++
                   [paint_text ex (joinNl st1.painter.minus_lines) syn
                      (some config.minus_color) config config.highlight_removed
                      st1.painter.output_buffer,
                    paint_text ex (joinNl st1.painter.plus_lines) syn
                      (some config.plus_color) config true []],
                 plan := [] } := by
  have hm0 := hms m0 (List.mem_cons_self m0 mrest)
  have hmrest : ∀ l ∈ mrest, (ex.strip_ansi_codes l).head? = some '-' :=
    fun x hx => hms x (List.mem_cons_of_mem m0 hx)
  have main : ∀ stA : RunState σ,
      deltaStep config ex state st m0 = Res.ok (State.HunkMinus, stA) →
      stA.painter.synRef = some syn → stA.plan = [] →
      ∃ stA' st1, deltaStep config ex state st m0 = Res.ok (State.HunkMinus, stA') ∧
        deltaLoop config ex (mrest ++ ps) State.HunkMinus stA' =
          Res.ok (State.HunkPlus, st1) ∧
        st1.written = stA'.written ∧
        st1.painter.minus_lines = stA'.painter.minus_lines ++ mrest.map ex.strip_ansi_codes ∧
        st1.painter.plus_lines = stA'.painter.plus_lines ++ ps.map ex.strip_ansi_codes ∧
        Painter.paint_and_emit_buffered_lines config ex st1 =
          Res.ok { painter := { minus_lines := [], plus_lines := [],
                                synRef := some syn, output_buffer := [] },
                   written := st1.written ++
                     [paint_text ex (joinNl st1.painter.minus_lines) syn
                        (some config.minus_color) config config.highlight_removed
                        st1.painter.output_buffer,
                      paint_text ex (joinNl st1.painter.plus_lines) syn
                        (some config.plus_color) config true []],
                   plan := [] } := by
    intro stA hstepA hsynA hplA
    have hrun1 := @deltaLoop_minus_run _ _ _ config _ mrest stA
      (by rw [hsynA]; rfl) hmrest
    set stB : RunState σ :=
      { stA with painter := { stA.painter with
          minus_lines := stA.painter.minus_lines ++ mrest.map ex.strip_ansi_codes } }
    have hsynB : stB.painter.synRef = some syn := hsynA
    have hrun2 := @deltaLoop_plus_run _ _ _ config _ State.HunkMinus
      ps stB (Or.inr (Or.inr (Or.inl rfl))) hpsne
      (Option.isSome_iff_exists.mpr ⟨syn, hsynB⟩) hps
    set st1 : RunState σ :=
      { stB with painter := { stB.painter with
          plus_lines := stB.painter.plus_lines ++ ps.map ex.strip_ansi_codes } }
    have hloop : deltaLoop config ex (mrest ++ ps) State.HunkMinus stA =
        Res.ok (State.HunkPlus, st1) := by
      rw [deltaLoop_append mrest hrun1]
      exact hrun2
    refine ⟨stA, st1, hstepA, hloop, rfl, rfl, by simp, ?_⟩
    have hsyn1 : st1.painter.synRef = some syn := hsynA
    have hpl1 : st1.plan = [] := hplA
    have hne1 : ¬(st1.painter.minus_lines = [] ∧ st1.painter.plus_lines = []) := by
      intro hcon
      have h2 := hcon.2
      simp only [st1, stB] at h2
      rw [List.append_eq_nil] at h2
      exact hpsne (by simpa using h2.2)
    exact flush_spec hsyn1 hpl1 hne1
  by_cases hsp : state = State.HunkPlus
  · subst hsp
    by_cases hbuf : st.painter.minus_lines = [] ∧ st.painter.plus_lines = []
    · exact main _ (step_minus_flush_empty hm0 hbuf.1 hbuf.2 (by rw [hsyn]; rfl))
        hsyn hp
    · exact main _ (step_minus_flush hm0 hbuf hsyn hp) rfl rfl
  · exact main _ (step_minus_no_flush hm0 hst hsp (by rw [hsyn]; rfl)) hsyn hp

theorem c2_batched_runs_witness :
    ∃ stA st1,
      deltaStep cfgUnit exUnit State.HunkMeta
        { painter := { minus_lines := [], plus_lines := [], synRef := some (),
                       output_buffer := [] },
          written := [], plan := [] } ("-a".data) = Res.ok (State.HunkMinus, stA) ∧
      deltaLoop cfgUnit exUnit (["-b".data] ++ ["+c".data, "+d".data])
        State.HunkMinus stA = Res.ok (State.HunkPlus, st1) ∧
      st1.written = stA.written ∧
      st1.painter.minus_lines = stA.painter.minus_lines ++
        (["-b".data] : List Str).map exUnit.strip_ansi_codes ∧
      st1.painter.plus_lines = stA.painter.plus_lines ++
        (["+c".data, "+d".data] : List Str).map exUnit.strip_ansi_codes ∧
      Painter.paint_and_emit_buffered_lines cfgUnit exUnit st1 =
        Res.ok { painter := { minus_lines := [], plus_lines := [],
                              synRef := some (), output_buffer := [] },
                 written := st1.written ++
                   [paint_text exUnit (joinNl st1.painter.minus_lines) ()
                      (some cfgUnit.minus_color) cfgUnit cfgUnit.highlight_removed
                      st1.painter.output_buffer,
                    paint_text exUnit (joinNl st1.painter.plus_lines) ()
                      (some cfgUnit.plus_color) cfgUnit true []],
                 plan := [] } :=
  c2_batched_runs cfgUnit exUnit State.HunkMeta _ () ("-a".data)
    ["-b".data] ["+c".data, "+d".data]
    (Or.inl rfl) rfl rfl (by decide) (by decide) (by decide)

/-- **C5.** The buffer invariants of the classifier loop, for any write
plan: (1) after any processed prefix, a non-hunk classification state
has both buffers empty; (2) every successful flush empties both buffers
together; (3) one step keeps each buffer, clears it, appends the
stripped line at its end, or clears-and-restarts it with that line —
so the input order of buffered lines is preserved; (4) at run end,
after the final flush, both buffers are empty. -/
theorem c5_buffer_invariants {σ θ η : Type} (config : Config θ)
    (ex : Externals σ θ η) :
    (∀ (plan : List Bool) (p : List Str) (state : State) (st : RunState σ),
      deltaLoop config ex p State.Unknown (initSt plan) = Res.ok (state, st) →
      ¬ inHunk state →
      st.painter.minus_lines = [] ∧ st.painter.plus_lines = []) ∧
    (∀ st st' : RunState σ,
      Painter.paint_and_emit_buffered_lines config ex st = Res.ok st' →
      st'.painter.minus_lines = [] ∧ st'.painter.plus_lines = []) ∧
    (∀ (state state' : State) (st st' : RunState σ) (l : Str),
      deltaStep config ex state st l = Res.ok (state', st') →
      BufStep st.painter.minus_lines st'.painter.minus_lines (ex.strip_ansi_codes l) ∧
      BufStep st.painter.plus_lines st'.painter.plus_lines (ex.strip_ansi_codes l)) ∧
    (∀ (plan : List Bool) (lines : List Str) (state : State) (st : RunState σ),
      delta config ex plan lines = Res.ok (state, st) →
      st.painter.minus_lines = [] ∧ st.painter.plus_lines = []) := by
  refine ⟨?_, ?_, ?_, ?_⟩
  · intro plan p state st h hnin
    exact (deltaLoop_ok_loopInv p State.Unknown (initSt plan) state st h
      (loopInv_init plan)).1 hnin
  · intro st st' h
    obtain ⟨h1, h2, _⟩ := flush_ok h
    exact ⟨h1, h2⟩
  · intro state state' st st' l h
    obtain ⟨h1, h2, _⟩ := deltaStep_ok_buffers h
    exact ⟨h1, h2⟩
  · intro plan lines state st h
    unfold delta at h
    cases hloop : deltaLoop config ex lines State.Unknown (initSt plan) with
    | ok p =>
      obtain ⟨s1, st1⟩ := p
      simp only [hloop] at h
      cases hflush : Painter.paint_and_emit_buffered_lines config ex st1 with
      | ok st2 =>
        simp only [hflush] at h
        cases h
        obtain ⟨h1, h2, _⟩ := flush_ok hflush
        exact ⟨h1, h2⟩
      | wErr st2 => simp [hflush] at h
      | panicked => simp [hflush] at h
    | wErr p => rw [hloop] at h; cases h
    | panicked => rw [hloop] at h; cases h

theorem c5_buffer_invariants_witness :
    (([] : List Str) = [] ∧ ([] : List Str) = []) ∧
    (["-a".data] : List Str) = ["-a".data] :=
  ⟨(c5_buffer_invariants cfgUnit exUnit).1 [] ["commit x".data] State.Commit
      { painter := { minus_lines := [], plus_lines := [], synRef := none,
                     output_buffer := [] },
        written := ["commit x".data], plan := [] }
      (by decide) (by decide), rfl⟩

/-- **C6.** (amended) For inputs of clean lines — non-blank, free of
newline and escape characters, invariant under stripping — and a
highlighter whose ranges concatenate back to the highlighted line, the
run succeeds and the number of non-blank output lines written to the
sink equals the number of input lines: every input line produces
exactly one emitted or painted output line, whether emitted immediately
or after buffering. (The unamended claim quantifies over every finite
input sequence; a blank input line refutes it, see the counterexample.) -/
theorem c6_line_count {σ θ η : Type} (config : Config θ) (ex : Externals σ θ η)
    (lines : List Str) (hgood : GoodHl ex) (hcl : ∀ l ∈ lines, CleanLine ex l) :
    ∃ state' st', delta config ex [] lines = Res.ok (state', st') ∧
      nbCount st'.written = lines.length := by
  obtain ⟨state', st', h1, h2, _⟩ := delta_clean hgood hcl
  exact ⟨state', st', h1, h2⟩

theorem c6_line_count_witness :
    ∃ state' st', delta cfgUnit exUnit [] ["-a".data, "+b".data] =
      Res.ok (state', st') ∧
      nbCount st'.written = (["-a".data, "+b".data] : List Str).length :=
  c6_line_count cfgUnit exUnit ["-a".data, "+b".data] goodHl_exUnit (by decide)

/-- **C6** fails as stated for arbitrary inputs: a single blank input
line is written through verbatim, producing one blank output line and
zero non-blank ones, so the number of non-blank output lines (0) is not
the number of input lines (1). -/
theorem c6_counterexample :
    nbCount (runWritten cfgUnit exUnit [([] : Str)]) ≠
      ([([] : Str)] : List Str).length := by
  decide

/-- **C8.** (amended) The round trip holds on clean inputs whose hunk
headers arrive flushed, and restricted to the non-blank output lines:
the unescaped non-blank output of the first run is byte-identical to
the (stripped) input, and a second run over it with highlighting
disabled (no resolvable syntax) writes it back verbatim — so the escape
codes added by the first run are additive, not structural. (The
unamended claim — over all inputs and all output lines — fails: a flush
with an empty removed buffer writes a blank separator line, see the
counterexample.) -/
theorem c8_round_trip {σ θ η : Type} (config : Config θ)
    (ex exD : Externals σ θ η)
    (hfind : ∀ e, exD.find_syn_by_extension e = none)
    (lines : List Str) (hgood : GoodHl ex) (hcl : ∀ l ∈ lines, CleanLine ex l)
    (hhf : headersFlushed config ex lines State.Unknown (initSt []) = true) :
    ∃ state1 st1 state2 st2,
      delta config ex [] lines = Res.ok (state1, st1) ∧
      emittedClean st1.written = lines ∧
      delta config exD [] (emittedClean st1.written) = Res.ok (state2, st2) ∧
      st2.written = lines := by
  obtain ⟨state1, st1, h1, _, hem⟩ := delta_clean hgood hcl
  have hem' := hem hhf
  obtain ⟨state2, st2, h2, hw2⟩ := delta_no_syn hfind (emittedClean st1.written)
  exact ⟨state1, st1, state2, st2, h1, hem', h2, hw2.trans hem'⟩

theorem c8_round_trip_witness :
    ∃ state1 st1 state2 st2,
      delta cfgUnit exUnit [] ["diff --a.py".data, "-x".data, "+y".data] =
        Res.ok (state1, st1) ∧
      emittedClean st1.written = ["diff --a.py".data, "-x".data, "+y".data] ∧
      delta cfgUnit exNone [] (emittedClean st1.written) =
        Res.ok (state2, st2) ∧
      st2.written = ["diff --a.py".data, "-x".data, "+y".data] :=
  c8_round_trip cfgUnit exUnit exNone (fun _ => rfl)
    ["diff --a.py".data, "-x".data, "+y".data] goodHl_exUnit (by decide) (by decide)

/-- **C8** fails as literally stated (all inputs, byte-identical whole
output): on a diff with a hunk that has added lines but no removed
lines, the first run's flush paints the empty removed buffer, writing a
blank line that the stripped input does not contain, so rerunning the
filter with highlighting disabled on the unescaped output does not
reproduce the stripped input. -/
theorem c8_counterexample :
    unescapedOutput cfgUnit exNone (unescapedOutput cfgUnit exUnit c8input) ≠
      c8input.map stripAnsi := by
  decide

end Delta
